import Mathlib

/-! The plain renderer of mmark (`src/plain.go`): table of contents, block emission and links.

A shallow embedding of the `Plain` renderer.

* A byte sequence (`[]byte`, `string`, the contents of a `bytes.Buffer`) is a list of
  characters; every literal the renderer writes is ASCII, so one character is one byte.
* Go's `int` is modelled by `Int`: the levels and counters of the renderer change by one per
  heading and stay far from the bounds of the machine type. Where the bound of the counter
  matters, the definitions whose names end in `64` reduce the counter into the range of a
  64-bit `int`.
* A method with receiver `options *Plain` that writes to `out *bytes.Buffer` becomes a
  function from the renderer state and the buffer contents to the new state and contents.
  Where the Go code can panic (`Truncate` or a slice expression out of range) the function
  returns `none`.
* A content-producer `text func() bool` is a closure over the renderer and the output
  buffer: it becomes a function from both to both, together with the boolean it returns.
* Constants and helpers of the package that are declared outside `plain.go` are the fields
  of `Env` and, for the link operations, of `LinkEnv`; the definitions take them as
  parameters.
-/

namespace Mmark

/-- Contents of a byte slice, a string or a `bytes.Buffer`. -/
abbrev Bytes := List Char

/-! ## Library functions used by `plain.go` -/

/-- The decimal digit `d` as a byte: `'0' + d`. -/
def digitChar (d : Nat) : Char := Char.ofNat (48 + d)

/-- Decimal digits of `n`, most significant first; `fuel` bounds the number of digits. -/
def decimalDigits : Nat → Nat → Bytes
  | 0, _ => []
  | fuel + 1, n =>
    if n < 10 then [digitChar n] else decimalDigits fuel (n / 10) ++ [digitChar (n % 10)]

/-- Decimal representation, `strconv.Itoa` and the verb `%d` of `fmt.Sprintf`: the decimal
digits of the absolute value, after a minus sign when the number is negative. -/
def Itoa (i : Int) : Bytes :=
  if i < 0 then "-".toList ++ decimalDigits (i.natAbs + 1) i.natAbs
  else decimalDigits (i.natAbs + 1) i.natAbs

/-- Value of a string of decimal digits (the inverse of `decimalDigits`). -/
def decimalValue (s : Bytes) : Nat :=
  s.foldl (fun acc c => 10 * acc + (c.toNat - 48)) 0

/-- Go's `bytes.HasSuffix`. -/
def HasSuffix (s suffix : Bytes) : Bool := suffix.isSuffixOf s

/-- Go's `(*bytes.Buffer).Truncate(n)`: keeps the first `n` bytes; panics when `n` is
negative or greater than the length. -/
def Truncate (buf : Bytes) (n : Int) : Option Bytes :=
  if 0 ≤ n ∧ n ≤ (buf.length : Int) then some (buf.take n.toNat) else none

/-- The slice expression `buf.Bytes()[n:]`; panics when `n` is out of range. -/
def sliceFrom (buf : Bytes) (n : Int) : Option Bytes :=
  if 0 ≤ n ∧ n ≤ (buf.length : Int) then some (buf.drop n.toNat) else none

/-- The test `flags&c != 0` on a bit set. -/
def hasFlag (flags c : Int) : Bool := Int.land flags c != 0

/-- Number of positions of `s` at which `pat` occurs. -/
def countOcc (pat : Bytes) : Bytes → Nat
  | [] => 0
  | c :: s => (if pat.isPrefixOf (c :: s) then 1 else 0) + countOcc pat s

/-! ## Data model -/

/-- Modelled from the spec: the type `InlineAttr` is declared outside `plain.go`; the spec
describes it as an attached attribute set of key/value pairs. -/
structure InlineAttr where
  attr : List (Bytes × Bytes)

/-- The string parameters of the renderer that `plain.go` reads from `options.parameters`
(the type is declared outside `plain.go`). -/
structure HtmlRendererParameters where
  AbsolutePrefix : Bytes
  FootnoteAnchorPrefix : Bytes
  FootnoteReturnLinkContents : Bytes

/-- The struct `Plain`. The field `toc` holds the contents of the buffer it points to. -/
structure Plain where
  flags : Int
  closeTag : Bytes
  title : Bytes
  css : Bytes
  ial : Option InlineAttr
  parameters : HtmlRendererParameters
  tocMarker : Int
  headerCount : Int
  currentLevel : Int
  toc : Bytes

/-- Constants and helpers that `plain.go` uses and the package declares elsewhere.
`doubleSpace` receives the buffer and gives the buffer it leaves; `attrEscape` gives the
escaped bytes that it appends to the buffer. -/
structure Env where
  HTML_TOC : Int
  HTML_OMIT_CONTENTS : Int
  HTML_COMPLETE_PAGE : Int
  HTML_USE_XHTML : Int
  LIST_TYPE_ORDERED : Int
  LIST_TYPE_ORDERED_ALPHA_LOWER : Int
  LIST_TYPE_ORDERED_ALPHA_UPPER : Int
  LIST_TYPE_ORDERED_ROMAN_LOWER : Int
  LIST_TYPE_ORDERED_ROMAN_UPPER : Int
  VERSION : Bytes
  doubleSpace : Bytes → Bytes
  attrEscape : Bytes → Bytes

/-- A content-producer `text func() bool`: run on the renderer state and the output buffer,
it leaves both in a new state and returns a boolean. -/
abbrev Producer := Plain → Bytes → Plain × Bytes × Bool

/-- A helper that writes to a buffer only appends to it. -/
def AppendOnly (f : Bytes → Bytes) : Prop := ∀ out, ∃ written, f out = out ++ written

/-! ## Table of contents -/

/-- One turn of the loop `for level > options.currentLevel` of `TocHeaderWithAnchor`. -/
def tocOpenStep (options : Plain) : Plain :=
  let toc1 :=
    if HasSuffix options.toc "</li>\n".toList then
      options.toc.take (options.toc.length - "</li>\n".toList.length)
    else if options.currentLevel > 0 then options.toc ++ "<li>".toList
    else options.toc
  let toc2 := if toc1.length > 0 then toc1 ++ "\n".toList else toc1
  { options with toc := toc2 ++ "<ul>\n".toList, currentLevel := options.currentLevel + 1 }

/-- The loop `for level > options.currentLevel`, at most `fuel` turns. -/
def tocOpenLoop : Nat → Int → Plain → Plain
  | 0, _, options => options
  | fuel + 1, level, options =>
    if level > options.currentLevel then tocOpenLoop fuel level (tocOpenStep options)
    else options

/-- One turn of the loop `for level < options.currentLevel` of `TocHeaderWithAnchor`. -/
def tocCloseStep (options : Plain) : Plain :=
  let toc1 := options.toc ++ "</ul>".toList
  let toc2 := if options.currentLevel > 1 then toc1 ++ "</li>\n".toList else toc1
  { options with toc := toc2, currentLevel := options.currentLevel - 1 }

/-- The loop `for level < options.currentLevel`, at most `fuel` turns. -/
def tocCloseLoop : Nat → Int → Plain → Plain
  | 0, _, options => options
  | fuel + 1, level, options =>
    if level < options.currentLevel then tocCloseLoop fuel level (tocCloseStep options)
    else options

/-- The link target that `TocHeaderWithAnchor` writes: the anchor, or `toc_<headerCount>`. -/
def tocTarget (options : Plain) (anchor : Bytes) : Bytes :=
  if anchor ≠ [] then anchor else "toc_".toList ++ Itoa options.headerCount

/-- The list item that `TocHeaderWithAnchor` writes after its two loops. -/
def tocItem (options : Plain) (text anchor : Bytes) : Bytes :=
  "<li><a href=\"#".toList ++ tocTarget options anchor ++ "\">".toList ++ text
    ++ "</a></li>\n".toList

/-- The two loops of `TocHeaderWithAnchor`: the level transition. The first loop makes
`level - currentLevel` turns, the second `currentLevel - level` turns. -/
def tocTransition (options : Plain) (level : Int) : Plain :=
  let o1 := tocOpenLoop (level - options.currentLevel).toNat level options
  tocCloseLoop (o1.currentLevel - level).toNat level o1

/-- The method `TocHeaderWithAnchor`. -/
def TocHeaderWithAnchor (options : Plain) (text : Bytes) (level : Int) (anchor : Bytes) :
    Plain :=
  let o2 := tocTransition options level
  { o2 with toc := o2.toc ++ tocItem o2 text anchor, headerCount := o2.headerCount + 1 }

/-- The method `TocHeader`. -/
def TocHeader (options : Plain) (text : Bytes) (level : Int) : Plain :=
  TocHeaderWithAnchor options text level []

/-- One turn of the loop `for options.currentLevel > 1` of `TocFinalize`. -/
def tocFinalizeStep (options : Plain) : Plain :=
  { options with toc := options.toc ++ "</ul></li>\n".toList,
                 currentLevel := options.currentLevel - 1 }

/-- The loop `for options.currentLevel > 1` of `TocFinalize`, at most `fuel` turns. -/
def tocFinalizeLoop : Nat → Plain → Plain
  | 0, options => options
  | fuel + 1, options =>
    if options.currentLevel > 1 then tocFinalizeLoop fuel (tocFinalizeStep options)
    else options

/-- The method `TocFinalize`; its loop makes `currentLevel - 1` turns. -/
def TocFinalize (options : Plain) : Plain :=
  let o1 := tocFinalizeLoop (options.currentLevel - 1).toNat options
  if o1.currentLevel > 0 then { o1 with toc := o1.toc ++ "</ul>\n".toList } else o1

/-! ## Block-level operations -/

/-- The opening tag that `Header` writes. -/
def headerOpenTag (E : Env) (options : Plain) (level : Int) (id : Bytes) : Bytes :=
  if id ≠ [] then "<h".toList ++ Itoa level ++ " id=\"".toList ++ id ++ "\">".toList
  else if hasFlag options.flags E.HTML_TOC then
    "<h".toList ++ Itoa level ++ " id=\"toc_".toList ++ Itoa options.headerCount
      ++ "\">".toList
  else "<h".toList ++ Itoa level ++ ">".toList

/-- The closing tag that `Header` writes. -/
def headerCloseTag (level : Int) : Bytes := "</h".toList ++ Itoa level ++ ">\n".toList

/-- The method `Header`. -/
def Header (E : Env) (options : Plain) (out : Bytes) (text : Producer) (level : Int)
    (id : Bytes) : Option (Plain × Bytes) :=
  let marker : Int := out.length
  let out1 := E.doubleSpace out ++ headerOpenTag E options level id
  let tocMarker : Int := out1.length
  match text options out1 with
  | (options1, out2, false) => (Truncate out2 marker).map (fun o => (options1, o))
  | (options1, out2, true) =>
    if hasFlag options1.flags E.HTML_TOC then
      (sliceFrom out2 tocMarker).map (fun t =>
        (TocHeaderWithAnchor options1 t level id, out2 ++ headerCloseTag level))
    else some (options1, out2 ++ headerCloseTag level)

/-- The opening tag that `List` writes. -/
def listOpenTag (E : Env) (flags : Int) : Bytes :=
  if hasFlag flags E.LIST_TYPE_ORDERED then
    if hasFlag flags E.LIST_TYPE_ORDERED_ALPHA_LOWER then "<ol type=\"a\">".toList
    else if hasFlag flags E.LIST_TYPE_ORDERED_ALPHA_UPPER then "<ol type=\"A\">".toList
    else if hasFlag flags E.LIST_TYPE_ORDERED_ROMAN_LOWER then "<ol type=\"i\">".toList
    else if hasFlag flags E.LIST_TYPE_ORDERED_ROMAN_UPPER then "<ol type=\"I\">".toList
    else "<ol>".toList
  else "<ul>".toList

/-- The method `List` of `Plain` (named with its receiver type, since `List` is the type of
lists); the parameters `start` and `group` are not used by the code. -/
def Plain.List (E : Env) (options : Plain) (out : Bytes) (text : Producer) (flags : Int)
    (_start : Int) (_group : Bytes) : Option (Plain × Bytes) :=
  let marker : Int := out.length
  let out1 := E.doubleSpace out ++ listOpenTag E flags
  match text options out1 with
  | (options1, out2, false) => (Truncate out2 marker).map (fun o => (options1, o))
  | (options1, out2, true) =>
    if hasFlag flags E.LIST_TYPE_ORDERED then some (options1, out2 ++ "</ol>\n".toList)
    else some (options1, out2 ++ "</ul>\n".toList)

/-- The method `Paragraph`; the parameter `flags` is not used by the code. -/
def Paragraph (E : Env) (options : Plain) (out : Bytes) (text : Producer) (_flags : Int) :
    Option (Plain × Bytes) :=
  let marker : Int := out.length
  let out1 := E.doubleSpace out ++ "<p>".toList
  match text options out1 with
  | (options1, out2, false) => (Truncate out2 marker).map (fun o => (options1, o))
  | (options1, out2, true) => some (options1, out2 ++ "</p>\n".toList)

/-! ## Document header and footer -/

/-- The method `NormalText`. -/
def NormalText (E : Env) (out text : Bytes) : Bytes := out ++ E.attrEscape text

/-- The method `DocumentHeader`. -/
def DocumentHeader (E : Env) (options : Plain) (out : Bytes) (first : Bool) :
    Plain × Bytes :=
  if !first then (options, out)
  else if !hasFlag options.flags E.HTML_COMPLETE_PAGE then (options, out)
  else
    let xhtml := hasFlag options.flags E.HTML_USE_XHTML
    let ending : Bytes := if xhtml then " /".toList else []
    let out1 :=
      if xhtml then
        out ++ "<!DOCTYPE html PUBLIC \"-//W3C//DTD XHTML 1.0 Transitional//EN\" ".toList
          ++ "\"http://www.w3.org/TR/xhtml1/DTD/xhtml1-transitional.dtd\">\n".toList
          ++ "<html xmlns=\"http://www.w3.org/1999/xhtml\">\n".toList
      else out ++ "<!DOCTYPE html>\n".toList ++ "<html>\n".toList
    let out2 := NormalText E (out1 ++ "<head>\n".toList ++ "  <title>".toList) options.title
    let out3 := out2 ++ "</title>\n".toList
      ++ "  <meta name=\"GENERATOR\" content=\"Blackfriday Markdown Processor v".toList
      ++ E.VERSION ++ "\"".toList ++ ending ++ ">\n".toList
      ++ "  <meta charset=\"utf-8\"".toList ++ ending ++ ">\n".toList
    let out4 :=
      if options.css ≠ [] then
        out3 ++ "  <link rel=\"stylesheet\" type=\"text/css\" href=\"".toList
          ++ E.attrEscape options.css ++ "\"".toList ++ ending ++ ">\n".toList
      else out3
    let out5 := out4 ++ "</head>\n".toList ++ "<body>\n".toList
    ({ options with tocMarker := out5.length }, out5)

/-- The closing markup that `DocumentFooter` appends in complete-page mode. -/
def pageFooter (E : Env) (options : Plain) (out : Bytes) : Bytes :=
  if hasFlag options.flags E.HTML_COMPLETE_PAGE then
    out ++ "\n</body>\n".toList ++ "</html>\n".toList
  else out

/-- The method `DocumentFooter`. -/
def DocumentFooter (E : Env) (options : Plain) (out : Bytes) (first : Bool) :
    Option (Plain × Bytes) :=
  if !first then some (options, out)
  else if hasFlag options.flags E.HTML_TOC then
    let options1 := TocFinalize options
    match sliceFrom out options1.tocMarker, Truncate out options1.tocMarker with
    | some temp, some out1 =>
      let out2 := if hasFlag options1.flags E.HTML_COMPLETE_PAGE then out1 ++ "\n".toList
        else out1
      let out3 := out2 ++ "<nav>\n".toList ++ options1.toc ++ "</nav>\n".toList
      let out4 :=
        if !hasFlag options1.flags E.HTML_COMPLETE_PAGE
            && !hasFlag options1.flags E.HTML_OMIT_CONTENTS then out3 ++ "\n".toList
        else out3
      let out5 := if !hasFlag options1.flags E.HTML_OMIT_CONTENTS then out4 ++ temp else out4
      some (options1, pageFooter E options1 out5)
    | _, _ => none
  else some (options, pageFooter E options out)

/-- The method `SetInlineAttr`. -/
def SetInlineAttr (options : Plain) (i : Option InlineAttr) : Plain :=
  { options with ial := i }

/-- The method `HRule`. -/
def HRule (E : Env) (options : Plain) (out : Bytes) : Bytes :=
  E.doubleSpace out ++ "<hr".toList ++ options.closeTag

/-- The method `Footnotes`. -/
def Footnotes (E : Env) (options : Plain) (out : Bytes) (text : Producer) :
    Option (Plain × Bytes) :=
  let out1 := HRule E options (out ++ "<div class=\"footnotes\">\n".toList)
  (Plain.List E options out1 text E.LIST_TYPE_ORDERED 0 []).map
    (fun r => (r.1, r.2 ++ "</div>\n".toList))

/-! ## The counter on a 64-bit platform -/

/-- The largest value of Go's `int` on a 64-bit platform. -/
def maxInt64 : Int := 2 ^ 63 - 1

/-- The smallest value of Go's `int` on a 64-bit platform. -/
def minInt64 : Int := -(2 ^ 63)

/-- Arithmetic of Go's `int` on a 64-bit platform: a result is reduced modulo `2 ^ 64` into
the range from `minInt64` to `maxInt64`. -/
def wrapInt64 (x : Int) : Int := (x + 2 ^ 63) % 2 ^ 64 - 2 ^ 63

/-- A renderer state as a 64-bit platform stores it: `headerCount`, the field that
`options.headerCount++` changes, is reduced into the range of `int`. -/
def onMachine64 (p : Plain) : Plain := { p with headerCount := wrapInt64 p.headerCount }

/-- The method `TocHeaderWithAnchor` on a 64-bit platform: what `TocHeaderWithAnchor` does,
with the result of `options.headerCount++` reduced into the range of `int`. -/
def TocHeaderWithAnchor64 (options : Plain) (text : Bytes) (level : Int) (anchor : Bytes) :
    Plain :=
  onMachine64 (TocHeaderWithAnchor options text level anchor)

/-- The method `TocHeader` on a 64-bit platform. -/
def TocHeader64 (options : Plain) (text : Bytes) (level : Int) : Plain :=
  onMachine64 (TocHeader options text level)

/-- The counter of the state is in the range of a 64-bit `int`. -/
def InIntRange (p : Plain) : Prop := minInt64 ≤ p.headerCount ∧ p.headerCount ≤ maxInt64

/-! ## Calls of the renderer -/

/-- A call of a method of `Plain`. The first ten constructors are the methods that assign a
field of the renderer or run a content-producer. Every other method of `plain.go`
(`HRule`, `BlockCode`, `Table`, `Link`, `AutoLink`, `FootnoteRef`, ...) assigns no field and
runs no producer: it reads the renderer and writes to the output buffer, and is a `write`
with the function `render` that gives the buffer it leaves. -/
inductive Op where
  | header (text : Producer) (level : Int) (id : Bytes)
  | paragraph (text : Producer) (flags : Int)
  | list (text : Producer) (flags start : Int) (group : Bytes)
  | footnotes (text : Producer)
  | documentHeader (first : Bool)
  | documentFooter (first : Bool)
  | tocHeaderWithAnchor (text : Bytes) (level : Int) (anchor : Bytes)
  | tocHeader (text : Bytes) (level : Int)
  | tocFinalize
  | setInlineAttr (i : Option InlineAttr)
  | write (render : Plain → Bytes → Bytes)

/-- The effect of a call on the renderer state and the output buffer. -/
def Op.run (E : Env) : Op → Plain → Bytes → Option (Plain × Bytes)
  | .header text level id, p, out => Header E p out text level id
  | .paragraph text flags, p, out => Paragraph E p out text flags
  | .list text flags start group, p, out => Plain.List E p out text flags start group
  | .footnotes text, p, out => Footnotes E p out text
  | .documentHeader first, p, out => some (DocumentHeader E p out first)
  | .documentFooter first, p, out => DocumentFooter E p out first
  | .tocHeaderWithAnchor text level anchor, p, out =>
    some (TocHeaderWithAnchor p text level anchor, out)
  | .tocHeader text level, p, out => some (TocHeader p text level, out)
  | .tocFinalize, p, out => some (TocFinalize p, out)
  | .setInlineAttr i, p, out => some (SetInlineAttr p i, out)
  | .write render, p, out => some (p, render p out)

/-- The content-producers that a call runs. -/
def Op.producers : Op → List Producer
  | .header text _ _ => [text]
  | .paragraph text _ => [text]
  | .list text _ _ _ => [text]
  | .footnotes text => [text]
  | _ => []

/-- The effect of a call on a 64-bit platform: the effect of the call, with the counter it
leaves reduced into the range of `int`. A call runs `options.headerCount++` at most once
after its producer has returned. -/
def Op.run64 (E : Env) (op : Op) (p : Plain) (out : Bytes) : Option (Plain × Bytes) :=
  (op.run E p out).map (fun r => (onMachine64 r.1, r.2))

/-- A content-producer that never lowers `headerCount`. -/
def KeepsCount (text : Producer) : Prop :=
  ∀ q o, q.headerCount ≤ (text q o).1.headerCount

/-- A content-producer that leaves the counter in the range of a 64-bit `int`. -/
def KeepsRange (text : Producer) : Prop :=
  ∀ q o, InIntRange q → InIntRange (text q o).1

/-- The arguments of one call of `TocHeaderWithAnchor`. -/
structure Registration where
  text : Bytes
  level : Int
  anchor : Bytes

/-- One registration of a heading. -/
def register (p : Plain) (r : Registration) : Plain :=
  TocHeaderWithAnchor p r.text r.level r.anchor

/-- A sequence of registrations, in order. -/
def registerAll (p : Plain) (rs : List Registration) : Plain := rs.foldl register p

/-- One registration of a heading on a 64-bit platform. -/
def register64 (p : Plain) (r : Registration) : Plain :=
  TocHeaderWithAnchor64 p r.text r.level r.anchor

/-- The bytes that one registration appends to the toc buffer after its level transition,
read off the buffer that the registration leaves. -/
def writtenItem (p : Plain) (r : Registration) : Bytes :=
  (register64 p r).toc.drop (tocTransition p r.level).toc.length

/-- The link target of a toc item, read off its bytes: what stands after the opening
`<li><a href="#` up to the next double quote. -/
def itemTarget (item : Bytes) : Bytes :=
  (item.drop "<li><a href=\"#".toList.length).takeWhile (fun c => c != '"')

/-- The link targets that a sequence of registrations writes into the toc buffer for the
headings without an explicit anchor, in order, each read off the bytes that its registration
has appended to the buffer. -/
def writtenTargets : Plain → List Registration → List Bytes
  | _, [] => []
  | p, r :: rs =>
    if r.anchor = [] then itemTarget (writtenItem p r) :: writtenTargets (register64 p r) rs
    else writtenTargets (register64 p r) rs

/-! ## Counting tags -/

/-- The four list tags of the table of contents. -/
def listTags : List Bytes := ["<ul>".toList, "</ul>".toList, "<li>".toList, "</li>".toList]

/-- The bytes `s` contain no list tag. -/
def noListTags (s : Bytes) : Prop := ∀ pat ∈ listTags, countOcc pat s = 0

instance (s : Bytes) : Decidable (noListTags s) := by
  unfold noListTags
  infer_instance

/-- Occurrences of `opening` minus occurrences of `closing` in `s`. -/
def tagBalance (opening closing s : Bytes) : Int :=
  (countOcc opening s : Int) - (countOcc closing s : Int)

/-- The invariant of the table-of-contents state between registrations at levels from 1:
either nothing was registered, or `currentLevel` lists are open and all but the last of
their enclosing items are open. -/
def TocInv (p : Plain) : Prop :=
  (p.currentLevel = 0 ∧ p.toc = []) ∨
  (1 ≤ p.currentLevel ∧
    tagBalance "<ul>".toList "</ul>".toList p.toc = p.currentLevel ∧
    tagBalance "<li>".toList "</li>".toList p.toc = p.currentLevel - 1)

/-! ## Links -/

/-- Constants and helpers of the link operations that the package declares outside
`plain.go`. `htmlEntityFindAllIndex link` stands for `htmlEntity.FindAllIndex(link, -1)`, the
ranges that `entityEscapeWithSkip` leaves as they are; `entityEscapeWithSkip` gives the
escaped bytes that it appends to the buffer. -/
structure LinkEnv where
  HTML_SKIP_LINKS : Int
  HTML_SAFELINK : Int
  HTML_NOFOLLOW_LINKS : Int
  HTML_HREF_TARGET_BLANK : Int
  LINK_TYPE_EMAIL : Int
  isSafeLink : Bytes → Bool
  isRelativeLink : Bytes → Bool
  htmlEntityFindAllIndex : Bytes → List (Nat × Nat)
  entityEscapeWithSkip : Bytes → List (Nat × Nat) → Bytes

/-- Go's `bytes.HasPrefix`. -/
def HasPrefix (s start : Bytes) : Bool := start.isPrefixOf s

/-- The method `maybeWriteAbsolutePrefix`; the index expression `link[0]` panics on an empty
link. -/
def maybeWriteAbsolutePrefix (L : LinkEnv) (options : Plain) (out link : Bytes) :
    Option Bytes :=
  if options.parameters.AbsolutePrefix ≠ [] ∧ L.isRelativeLink link = true then
    match link with
    | [] => none
    | c :: _ =>
      if c ≠ '/' then some (out ++ options.parameters.AbsolutePrefix ++ "/".toList)
      else some (out ++ options.parameters.AbsolutePrefix)
  else some out

/-- The method `AutoLink`. -/
def AutoLink (E : Env) (L : LinkEnv) (options : Plain) (out link : Bytes) (kind : Int) :
    Option Bytes :=
  let skipRanges := L.htmlEntityFindAllIndex link
  if hasFlag options.flags L.HTML_SAFELINK && !L.isSafeLink link
      && kind != L.LINK_TYPE_EMAIL then
    some (out ++ "<tt>".toList ++ L.entityEscapeWithSkip link skipRanges ++ "</tt>".toList)
  else
    let out1 := out ++ "<a href=\"".toList
    let out2 :=
      if kind = L.LINK_TYPE_EMAIL then some (out1 ++ "mailto:".toList)
      else maybeWriteAbsolutePrefix L options out1 link
    out2.map (fun o2 =>
      let out3 := o2 ++ L.entityEscapeWithSkip link skipRanges
      let out4 :=
        if hasFlag options.flags L.HTML_NOFOLLOW_LINKS && !L.isRelativeLink link then
          out3 ++ "\" rel=\"nofollow".toList
        else out3
      let out5 :=
        if hasFlag options.flags L.HTML_HREF_TARGET_BLANK && !L.isRelativeLink link then
          out4 ++ "\" target=\"_blank".toList
        else out4
      let out6 := out5 ++ "\">".toList
      let out7 :=
        if HasPrefix link "mailto://".toList then
          out6 ++ E.attrEscape (link.drop "mailto://".toList.length)
        else if HasPrefix link "mailto:".toList then
          out6 ++ E.attrEscape (link.drop "mailto:".toList.length)
        else out6 ++ L.entityEscapeWithSkip link skipRanges
      out7 ++ "</a>".toList)

/-- The method `Link`. -/
def Link (E : Env) (L : LinkEnv) (options : Plain) (out link title content : Bytes) :
    Option Bytes :=
  if hasFlag options.flags L.HTML_SKIP_LINKS then
    some (out ++ "<tt>".toList ++ E.attrEscape content ++ "</tt>".toList)
  else if hasFlag options.flags L.HTML_SAFELINK && !L.isSafeLink link then
    some (out ++ "<tt>".toList ++ E.attrEscape content ++ "</tt>".toList)
  else
    (maybeWriteAbsolutePrefix L options (out ++ "<a href=\"".toList) link).map (fun o1 =>
      let out2 := o1 ++ E.attrEscape link
      let out3 :=
        if title.length > 0 then out2 ++ "\" title=\"".toList ++ E.attrEscape title
        else out2
      let out4 :=
        if hasFlag options.flags L.HTML_NOFOLLOW_LINKS && !L.isRelativeLink link then
          out3 ++ "\" rel=\"nofollow".toList
        else out3
      let out5 :=
        if hasFlag options.flags L.HTML_HREF_TARGET_BLANK && !L.isRelativeLink link then
          out4 ++ "\" target=\"_blank".toList
        else out4
      out5 ++ "\">".toList ++ content ++ "</a>".toList)

/-! ## Construction -/

/-- The constructor `PlainRenderer`: it returns `&Plain{}`, a renderer all of whose fields
have their zero value. The field `toc` is a nil pointer there; the model gives it the empty
contents. -/
def PlainRenderer (_flags : Int) : Plain where
  flags := 0
  closeTag := []
  title := []
  css := []
  ial := none
  parameters := ⟨[], [], []⟩
  tocMarker := 0
  headerCount := 0
  currentLevel := 0
  toc := []

/-- The method `Flags`. -/
def Flags (options : Plain) : Int := options.flags

/-- The part of the toc buffer that a level transition keeps: the buffer at entry, without
its final closed-item tag when the opening loop runs and finds one there. -/
def tocKept (options : Plain) (level : Int) : Bytes :=
  if level > options.currentLevel ∧ HasSuffix options.toc "</li>\n".toList = true then
    options.toc.take (options.toc.length - "</li>\n".toList.length)
  else options.toc

/-! ## Concrete values used to run the definitions -/

/-- One assignment of the constants (distinct powers of two, as bit flags are) and of the
helpers: `doubleSpace` writes a newline into a buffer that is not empty, `attrEscape`
writes its argument as it is. -/
def sampleEnv : Env where
  HTML_TOC := 128
  HTML_OMIT_CONTENTS := 256
  HTML_COMPLETE_PAGE := 512
  HTML_USE_XHTML := 1024
  LIST_TYPE_ORDERED := 1
  LIST_TYPE_ORDERED_ALPHA_LOWER := 2
  LIST_TYPE_ORDERED_ALPHA_UPPER := 4
  LIST_TYPE_ORDERED_ROMAN_LOWER := 8
  LIST_TYPE_ORDERED_ROMAN_UPPER := 16
  VERSION := "1.1".toList
  doubleSpace := fun out => if out.length > 0 then out ++ "\n".toList else out
  attrEscape := fun text => text

/-- A renderer with the given flags that has not rendered anything yet. -/
def freshPlain (flags : Int) : Plain where
  flags := flags
  closeTag := ">\n".toList
  title := []
  css := []
  ial := none
  parameters := ⟨[], [], []⟩
  tocMarker := 0
  headerCount := 0
  currentLevel := 0
  toc := []

/-- A content-producer that appends `c` to the output buffer, leaves the renderer state
alone and returns `ok`. -/
def appendProducer (c : Bytes) (ok : Bool) : Producer := fun options out =>
  (options, out ++ c, ok)

/-- One assignment of the link constants and helpers: a link is safe when it starts with
`http://`, `https://`, `mailto:` or `/`; it is relative when it holds no colon and does
not start with `//`; the escaping helpers write their argument as it is. -/
def sampleLinkEnv : LinkEnv where
  HTML_SKIP_LINKS := 8
  HTML_SAFELINK := 16
  HTML_NOFOLLOW_LINKS := 32
  HTML_HREF_TARGET_BLANK := 64
  LINK_TYPE_EMAIL := 2
  isSafeLink := fun link =>
    "http://".toList.isPrefixOf link || "https://".toList.isPrefixOf link
      || "mailto:".toList.isPrefixOf link || "/".toList.isPrefixOf link
  isRelativeLink := fun link => !link.contains ':' && !"//".toList.isPrefixOf link
  htmlEntityFindAllIndex := fun _ => []
  entityEscapeWithSkip := fun link _ => link

/-- A fresh renderer with the given flags and absolute prefix. -/
def plainWithPrefix (flags : Int) (absolute : Bytes) : Plain :=
  { freshPlain flags with parameters := ⟨absolute, [], []⟩ }

/-! ## Buffers -/

theorem Truncate_append (out written : Bytes) :
    Truncate (out ++ written) (out.length : Int) = some out := by
  simp [Truncate]

theorem sliceFrom_append (out written : Bytes) :
    sliceFrom (out ++ written) (out.length : Int) = some written := by
  simp [sliceFrom]

theorem HasSuffix_append (s suffix : Bytes) : HasSuffix (s ++ suffix) suffix = true := by
  simp [HasSuffix, List.isSuffixOf_iff_suffix]

/-- A buffer that ends with `t` does not end with `suffix` when `t` is no longer than
`suffix` and is not the end of it. -/
theorem HasSuffix_append_ne (s t suffix : Bytes) (hlen : t.length ≤ suffix.length)
    (hne : ¬ t <:+ suffix) : HasSuffix (s ++ t) suffix = false := by
  cases h : HasSuffix (s ++ t) suffix with
  | false => rfl
  | true =>
    exfalso
    apply hne
    have h1 : suffix <:+ s ++ t := by
      simpa [HasSuffix, List.isSuffixOf_iff_suffix] using h
    exact List.suffix_of_suffix_length_le (List.suffix_append s t) h1 hlen

theorem take_length_sub_append (s suffix : Bytes) :
    (s ++ suffix).take ((s ++ suffix).length - suffix.length) = s := by
  simp

/-! ## C2: an elided block leaves the buffer as it was -/

/-- C2. All-or-nothing block emission: for `Paragraph`, `List` and `Header`, when the helper
`doubleSpace` and the content-producer only append to the output buffer and the producer
returns false, the operation returns with the output buffer equal to the buffer before the
operation. -/
theorem c2_elided_block_restores_buffer (E : Env) (options : Plain) (out : Bytes)
    (text : Producer) (flags start level : Int) (group id : Bytes)
    (hds : AppendOnly E.doubleSpace)
    (happend : ∀ p o, ∃ c, (text p o).2.1 = o ++ c)
    (hfalse : ∀ p o, (text p o).2.2 = false) :
    (Paragraph E options out text flags).map Prod.snd = some out ∧
    (Plain.List E options out text flags start group).map Prod.snd = some out ∧
    (Header E options out text level id).map Prod.snd = some out := by
  obtain ⟨w, hw⟩ := hds out
  have key : ∀ tag : Bytes, ∃ p1 c,
      text options (E.doubleSpace out ++ tag) = (p1, out ++ (w ++ tag ++ c), false) := by
    intro tag
    obtain ⟨c, hc⟩ := happend options (E.doubleSpace out ++ tag)
    have hf := hfalse options (E.doubleSpace out ++ tag)
    rcases h : text options (E.doubleSpace out ++ tag) with ⟨p1, o1, b⟩
    rw [h] at hc hf
    simp only at hc hf
    subst hf
    exact ⟨p1, c, by rw [hc, hw]; simp⟩
  refine ⟨?_, ?_, ?_⟩
  · obtain ⟨p1, c, h⟩ := key "<p>".toList
    simp only [Paragraph, h, Truncate_append, Option.map_some']
  · obtain ⟨p1, c, h⟩ := key (listOpenTag E flags)
    simp only [Plain.List, h, Truncate_append, Option.map_some']
  · obtain ⟨p1, c, h⟩ := key (headerOpenTag E options level id)
    simp only [Header, h, Truncate_append, Option.map_some']

theorem sampleEnv_doubleSpace_appendOnly : AppendOnly sampleEnv.doubleSpace := by
  intro out
  by_cases h : out.length > 0
  · exact ⟨"\n".toList, by simp [sampleEnv, h]⟩
  · exact ⟨[], by simp [sampleEnv, h]⟩

/-- C2 at the buffer `x`, with a producer that writes `y` and returns false. -/
theorem c2_elided_block_restores_buffer_witness :
    (Paragraph sampleEnv (freshPlain 0) "x".toList (appendProducer "y".toList false) 0).map
        Prod.snd = some "x".toList ∧
    (Plain.List sampleEnv (freshPlain 0) "x".toList (appendProducer "y".toList false) 1 0
        []).map Prod.snd = some "x".toList ∧
    (Header sampleEnv (freshPlain 0) "x".toList (appendProducer "y".toList false) 2
        "id".toList).map Prod.snd = some "x".toList :=
  c2_elided_block_restores_buffer sampleEnv (freshPlain 0) "x".toList
    (appendProducer "y".toList false) 0 0 2 [] "id".toList
    sampleEnv_doubleSpace_appendOnly (fun _ _ => ⟨"y".toList, rfl⟩) (fun _ _ => rfl)

/-! ## The loops of the table of contents

Each loop of the source runs until its condition fails. The lemmas below show that the fuel
the model gives a loop is enough: with that fuel, or any larger one, the loop makes exactly
the number of turns after which its condition is false. -/

theorem tocOpenLoop_of_le (fuel : Nat) (level : Int) (p : Plain)
    (h : level ≤ p.currentLevel) : tocOpenLoop fuel level p = p := by
  cases fuel with
  | zero => rfl
  | succ f => simp [tocOpenLoop, not_lt.mpr h]

theorem tocOpenLoop_eq_iterate (n : Nat) : ∀ (fuel : Nat) (level : Int) (p : Plain),
    p.currentLevel + n = level → n ≤ fuel → tocOpenLoop fuel level p = tocOpenStep^[n] p := by
  induction n with
  | zero =>
    intro fuel level p h _
    exact tocOpenLoop_of_le fuel level p (by simp at h; omega)
  | succ n ih =>
    intro fuel level p h hf
    obtain ⟨f, rfl⟩ : ∃ f, fuel = f + 1 := ⟨fuel - 1, by omega⟩
    have hlt : level > p.currentLevel := by push_cast at h; omega
    have hstep : (tocOpenStep p).currentLevel + (n : Int) = level := by
      show p.currentLevel + 1 + (n : Int) = level
      push_cast at h; omega
    simp only [tocOpenLoop, hlt, if_true, Function.iterate_succ_apply]
    exact ih f level (tocOpenStep p) hstep (by omega)

theorem tocCloseLoop_of_le (fuel : Nat) (level : Int) (p : Plain)
    (h : p.currentLevel ≤ level) : tocCloseLoop fuel level p = p := by
  cases fuel with
  | zero => rfl
  | succ f => simp [tocCloseLoop, not_lt.mpr h]

theorem tocCloseLoop_eq_iterate (n : Nat) : ∀ (fuel : Nat) (level : Int) (p : Plain),
    level + n = p.currentLevel → n ≤ fuel →
      tocCloseLoop fuel level p = tocCloseStep^[n] p := by
  induction n with
  | zero =>
    intro fuel level p h _
    exact tocCloseLoop_of_le fuel level p (by simp at h; omega)
  | succ n ih =>
    intro fuel level p h hf
    obtain ⟨f, rfl⟩ : ∃ f, fuel = f + 1 := ⟨fuel - 1, by omega⟩
    have hlt : level < p.currentLevel := by push_cast at h; omega
    have hstep : level + (n : Int) = (tocCloseStep p).currentLevel := by
      show level + (n : Int) = p.currentLevel - 1
      push_cast at h; omega
    simp only [tocCloseLoop, hlt, if_true, Function.iterate_succ_apply]
    exact ih f level (tocCloseStep p) hstep (by omega)

theorem tocFinalizeLoop_of_le (fuel : Nat) (p : Plain) (h : p.currentLevel ≤ 1) :
    tocFinalizeLoop fuel p = p := by
  cases fuel with
  | zero => rfl
  | succ f => simp [tocFinalizeLoop, not_lt.mpr h]

theorem tocFinalizeLoop_eq_iterate (n : Nat) : ∀ (fuel : Nat) (p : Plain),
    1 + (n : Int) = p.currentLevel → n ≤ fuel →
      tocFinalizeLoop fuel p = tocFinalizeStep^[n] p := by
  induction n with
  | zero =>
    intro fuel p h _
    exact tocFinalizeLoop_of_le fuel p (by simp at h; omega)
  | succ n ih =>
    intro fuel p h hf
    obtain ⟨f, rfl⟩ : ∃ f, fuel = f + 1 := ⟨fuel - 1, by omega⟩
    have hlt : p.currentLevel > 1 := by push_cast at h; omega
    have hstep : 1 + (n : Int) = (tocFinalizeStep p).currentLevel := by
      show 1 + (n : Int) = p.currentLevel - 1
      push_cast at h; omega
    simp only [tocFinalizeLoop, hlt, if_true, Function.iterate_succ_apply]
    exact ih f (tocFinalizeStep p) hstep (by omega)

theorem iterate_tocOpenStep_currentLevel (n : Nat) : ∀ p : Plain,
    (tocOpenStep^[n] p).currentLevel = p.currentLevel + n := by
  induction n with
  | zero => intro p; simp
  | succ n ih =>
    intro p
    rw [Function.iterate_succ_apply, ih]
    show p.currentLevel + 1 + (n : Int) = p.currentLevel + ((n + 1 : Nat) : Int)
    push_cast; omega

theorem iterate_tocCloseStep_currentLevel (n : Nat) : ∀ p : Plain,
    (tocCloseStep^[n] p).currentLevel = p.currentLevel - n := by
  induction n with
  | zero => intro p; simp
  | succ n ih =>
    intro p
    rw [Function.iterate_succ_apply, ih]
    show p.currentLevel - 1 - (n : Int) = p.currentLevel - ((n + 1 : Nat) : Int)
    push_cast; omega

/-- A transition to a level that is not below the current one only opens lists. -/
theorem tocTransition_up (p : Plain) (level : Int) (n : Nat)
    (h : p.currentLevel + n = level) : tocTransition p level = tocOpenStep^[n] p := by
  have hn : (level - p.currentLevel).toNat = n := by omega
  have hcl : (tocOpenStep^[n] p).currentLevel = level := by
    rw [iterate_tocOpenStep_currentLevel, h]
  simp only [tocTransition, hn]
  rw [tocOpenLoop_eq_iterate n n level p h le_rfl]
  exact tocCloseLoop_of_le _ level _ (le_of_eq hcl)

/-- A transition to a level that is not above the current one only closes lists. -/
theorem tocTransition_down (p : Plain) (level : Int) (n : Nat)
    (h : level + n = p.currentLevel) : tocTransition p level = tocCloseStep^[n] p := by
  have hn : (p.currentLevel - level).toNat = n := by omega
  simp only [tocTransition]
  rw [tocOpenLoop_of_le _ level p (by omega), hn]
  exact tocCloseLoop_eq_iterate n n level p h le_rfl

/-- The level transition ends at the requested level. -/
theorem tocTransition_currentLevel (p : Plain) (level : Int) :
    (tocTransition p level).currentLevel = level := by
  rcases le_total p.currentLevel level with h | h
  · rw [tocTransition_up p level (level - p.currentLevel).toNat (by omega),
      iterate_tocOpenStep_currentLevel]
    omega
  · rw [tocTransition_down p level (p.currentLevel - level).toNat (by omega),
      iterate_tocCloseStep_currentLevel]
    omega

theorem iterate_tocOpenStep_headerCount (n : Nat) : ∀ p : Plain,
    (tocOpenStep^[n] p).headerCount = p.headerCount := by
  induction n with
  | zero => intro p; rfl
  | succ n ih => intro p; rw [Function.iterate_succ_apply, ih]; rfl

theorem iterate_tocCloseStep_headerCount (n : Nat) : ∀ p : Plain,
    (tocCloseStep^[n] p).headerCount = p.headerCount := by
  induction n with
  | zero => intro p; rfl
  | succ n ih => intro p; rw [Function.iterate_succ_apply, ih]; rfl

/-- The level transition does not change the counter. -/
theorem tocTransition_headerCount (p : Plain) (level : Int) :
    (tocTransition p level).headerCount = p.headerCount := by
  rcases le_total p.currentLevel level with h | h
  · rw [tocTransition_up p level (level - p.currentLevel).toNat (by omega),
      iterate_tocOpenStep_headerCount]
  · rw [tocTransition_down p level (p.currentLevel - level).toNat (by omega),
      iterate_tocCloseStep_headerCount]

theorem iterate_tocOpenStep_flags (n : Nat) : ∀ p : Plain,
    (tocOpenStep^[n] p).flags = p.flags := by
  induction n with
  | zero => intro p; rfl
  | succ n ih => intro p; rw [Function.iterate_succ_apply, ih]; rfl

/-- What one turn of the opening loop writes when the buffer ends with a closed item: the
item is opened again. -/
theorem tocOpenStep_toc_of_suffix (p : Plain) (s : Bytes)
    (h : p.toc = s ++ "</li>\n".toList) (hs : s ≠ []) :
    (tocOpenStep p).toc = s ++ "\n".toList ++ "<ul>\n".toList := by
  have hlen : s.length > 0 := List.length_pos.mpr hs
  simp only [tocOpenStep, h, HasSuffix_append, if_true, take_length_sub_append, hlen]

/-- What one turn of the opening loop writes when the buffer does not end with a closed
item and a list is open: a new item. -/
theorem tocOpenStep_toc_of_not_suffix (p : Plain)
    (h : HasSuffix p.toc "</li>\n".toList = false) (hcl : 0 < p.currentLevel) :
    (tocOpenStep p).toc = p.toc ++ "<li>".toList ++ "\n".toList ++ "<ul>\n".toList := by
  have hlen : (p.toc ++ "<li>".toList).length > 0 := by simp
  simp only [tocOpenStep, h, hcl, gt_iff_lt, if_true, hlen]
  simp

/-- What one turn of the opening loop writes into an empty buffer with no list open. -/
theorem tocOpenStep_toc_of_empty (p : Plain) (h : p.toc = []) (hcl : p.currentLevel ≤ 0) :
    (tocOpenStep p).toc = "<ul>\n".toList := by
  have hs : HasSuffix ([] : Bytes) "</li>\n".toList = false := by decide
  have hcl2 : ¬ (p.currentLevel > 0) := not_lt.mpr hcl
  simp [tocOpenStep, h, hs, hcl2]

/-! ## What a registration does to the table-of-contents state -/

theorem TocHeaderWithAnchor_toc (p : Plain) (text : Bytes) (level : Int) (anchor : Bytes) :
    (TocHeaderWithAnchor p text level anchor).toc =
      (tocTransition p level).toc ++ ("<li><a href=\"#".toList
        ++ (if anchor ≠ [] then anchor else "toc_".toList ++ Itoa p.headerCount)
        ++ "\">".toList ++ text ++ "</a></li>\n".toList) := by
  simp only [TocHeaderWithAnchor, tocItem, tocTarget, tocTransition_headerCount]

theorem TocHeaderWithAnchor_currentLevel (p : Plain) (text : Bytes) (level : Int)
    (anchor : Bytes) : (TocHeaderWithAnchor p text level anchor).currentLevel = level :=
  tocTransition_currentLevel p level

theorem TocHeaderWithAnchor_headerCount (p : Plain) (text : Bytes) (level : Int)
    (anchor : Bytes) :
    (TocHeaderWithAnchor p text level anchor).headerCount = p.headerCount + 1 := by
  simp only [TocHeaderWithAnchor, tocTransition_headerCount]

theorem Itoa_zero : Itoa 0 = "0".toList := by decide

theorem Itoa_one : Itoa 1 = "1".toList := by decide

theorem Itoa_two : Itoa 2 = "2".toList := by decide

/-- The first heading of a document, at level 1: one list is opened for it. -/
theorem TocHeaderWithAnchor_first (p : Plain) (text : Bytes)
    (hcl : p.currentLevel = 0) (hhc : p.headerCount = 0) (htoc : p.toc = []) :
    (tocTransition p 1).toc = "<ul>\n".toList ∧
    (TocHeaderWithAnchor p text 1 []).toc =
      "<ul>\n<li><a href=\"#toc_0\">".toList ++ text ++ "</a></li>\n".toList := by
  have ht : (tocTransition p 1).toc = "<ul>\n".toList := by
    rw [tocTransition_up p 1 1 (by rw [hcl]; rfl)]
    exact tocOpenStep_toc_of_empty p htoc (le_of_eq hcl)
  refine ⟨ht, ?_⟩
  rw [TocHeaderWithAnchor_toc, ht, hhc, Itoa_zero]
  simp

/-! ## C4: the level jump 1, 3, 2 -/

/-- C4. On a fresh table-of-contents state, registering texts `A`, `B`, `C` at levels 1, 3, 2
without explicit anchors: the first heading opens one list; the jump from 1 to 3 opens the
closed item again and opens exactly two more nested lists; the step from 3 to 2 writes one
`</ul>` followed by one `</li>` and a newline before the level-2 item; the buffer is then
exactly the text of the claim and `currentLevel` is 2. -/
theorem c4_level_jump_1_3_2 (p : Plain) (A B C : Bytes)
    (hfresh : p.currentLevel = 0 ∧ p.headerCount = 0 ∧ p.toc = []) :
    (tocTransition p 1).toc = "<ul>\n".toList ∧
    (TocHeaderWithAnchor p A 1 []).toc =
      "<ul>\n<li><a href=\"#toc_0\">".toList ++ A ++ "</a></li>\n".toList ∧
    (tocTransition (TocHeaderWithAnchor p A 1 []) 3).toc =
      "<ul>\n<li><a href=\"#toc_0\">".toList ++ A ++ "</a>".toList
        ++ "\n<ul>\n".toList ++ "<li>\n<ul>\n".toList ∧
    (tocTransition (TocHeaderWithAnchor (TocHeaderWithAnchor p A 1 []) B 3 []) 2).toc =
      (TocHeaderWithAnchor (TocHeaderWithAnchor p A 1 []) B 3 []).toc
        ++ "</ul>".toList ++ "</li>\n".toList ∧
    (TocHeaderWithAnchor (TocHeaderWithAnchor (TocHeaderWithAnchor p A 1 []) B 3 []) C 2
        []).toc =
      "<ul>\n<li><a href=\"#toc_0\">".toList ++ A
        ++ "</a>\n<ul>\n<li>\n<ul>\n<li><a href=\"#toc_1\">".toList ++ B
        ++ "</a></li>\n</ul></li>\n<li><a href=\"#toc_2\">".toList ++ C
        ++ "</a></li>\n".toList ∧
    (TocHeaderWithAnchor (TocHeaderWithAnchor (TocHeaderWithAnchor p A 1 []) B 3 []) C 2
        []).currentLevel = 2 := by
  obtain ⟨hcl, hhc, htoc⟩ := hfresh
  obtain ⟨h0, h1⟩ := TocHeaderWithAnchor_first p A hcl hhc htoc
  generalize hp1 : TocHeaderWithAnchor p A 1 [] = p1 at h1 ⊢
  have h1cl : p1.currentLevel = 1 := by rw [← hp1]; exact TocHeaderWithAnchor_currentLevel _ _ _ _
  have h1hc : p1.headerCount = 1 := by
    rw [← hp1, TocHeaderWithAnchor_headerCount, hhc]; rfl
  -- the jump from 1 to 3: two turns of the opening loop
  have h1s : p1.toc = ("<ul>\n<li><a href=\"#toc_0\">".toList ++ A ++ "</a>".toList)
      ++ "</li>\n".toList := by rw [h1]; simp
  have hq1 : (tocOpenStep p1).toc =
      "<ul>\n<li><a href=\"#toc_0\">".toList ++ A ++ "</a>".toList ++ "\n".toList
        ++ "<ul>\n".toList :=
    tocOpenStep_toc_of_suffix p1 _ h1s (by simp)
  have hq1s : HasSuffix (tocOpenStep p1).toc "</li>\n".toList = false := by
    rw [hq1]
    exact HasSuffix_append_ne _ _ _ (by decide) (by decide)
  have hq1cl : 0 < (tocOpenStep p1).currentLevel := by
    show 0 < p1.currentLevel + 1
    omega
  have hq2 := tocOpenStep_toc_of_not_suffix (tocOpenStep p1) hq1s hq1cl
  have ht2 : tocTransition p1 3 = tocOpenStep (tocOpenStep p1) := by
    rw [tocTransition_up p1 3 2 (by rw [h1cl]; rfl)]; rfl
  have h2t : (tocTransition p1 3).toc =
      "<ul>\n<li><a href=\"#toc_0\">".toList ++ A ++ "</a>".toList
        ++ "\n<ul>\n".toList ++ "<li>\n<ul>\n".toList := by
    rw [ht2, hq2, hq1]; simp
  have h2 := TocHeaderWithAnchor_toc p1 B 3 []
  rw [h2t, h1hc, Itoa_one] at h2
  generalize hp2 : TocHeaderWithAnchor p1 B 3 [] = p2 at h2 ⊢
  have h2cl : p2.currentLevel = 3 := by rw [← hp2]; exact TocHeaderWithAnchor_currentLevel _ _ _ _
  have h2hc : p2.headerCount = 2 := by
    rw [← hp2, TocHeaderWithAnchor_headerCount, h1hc]; rfl
  -- the step from 3 to 2: one turn of the closing loop
  have ht3 : tocTransition p2 2 = tocCloseStep p2 := by
    rw [tocTransition_down p2 2 1 (by rw [h2cl]; rfl)]; rfl
  have h3t : (tocTransition p2 2).toc = p2.toc ++ "</ul>".toList ++ "</li>\n".toList := by
    rw [ht3]
    have : p2.currentLevel > 1 := by omega
    simp only [tocCloseStep, this, if_true]
  have h3 := TocHeaderWithAnchor_toc p2 C 2 []
  rw [h3t, h2hc, Itoa_two, h2] at h3
  refine ⟨h0, h1, h2t, h3t, ?_, TocHeaderWithAnchor_currentLevel _ _ _ _⟩
  rw [h3]; simp

/-- C4 at the texts `A`, `B`, `C`. -/
theorem c4_level_jump_1_3_2_witness :
    (TocHeaderWithAnchor (TocHeaderWithAnchor (TocHeaderWithAnchor (freshPlain 0)
        "A".toList 1 []) "B".toList 3 []) "C".toList 2 []).toc =
      "<ul>\n<li><a href=\"#toc_0\">".toList ++ "A".toList
        ++ "</a>\n<ul>\n<li>\n<ul>\n<li><a href=\"#toc_1\">".toList ++ "B".toList
        ++ "</a></li>\n</ul></li>\n<li><a href=\"#toc_2\">".toList ++ "C".toList
        ++ "</a></li>\n".toList :=
  (c4_level_jump_1_3_2 (freshPlain 0) "A".toList "B".toList "C".toList
    ⟨rfl, rfl, rfl⟩).2.2.2.2.1

/-! ## Headings in table-of-contents mode -/

theorem iterate_tocCloseStep_flags (n : Nat) : ∀ p : Plain,
    (tocCloseStep^[n] p).flags = p.flags := by
  induction n with
  | zero => intro p; rfl
  | succ n ih => intro p; rw [Function.iterate_succ_apply, ih]; rfl

theorem tocTransition_flags (p : Plain) (level : Int) :
    (tocTransition p level).flags = p.flags := by
  rcases le_total p.currentLevel level with h | h
  · rw [tocTransition_up p level (level - p.currentLevel).toNat (by omega),
      iterate_tocOpenStep_flags]
  · rw [tocTransition_down p level (p.currentLevel - level).toNat (by omega),
      iterate_tocCloseStep_flags]

theorem TocHeaderWithAnchor_flags (p : Plain) (text : Bytes) (level : Int) (anchor : Bytes) :
    (TocHeaderWithAnchor p text level anchor).flags = p.flags :=
  tocTransition_flags p level

/-- A heading whose producer appends `c`, leaves the renderer alone and returns true, in
table-of-contents mode: the bytes after the opening tag are registered, then the closing
tag is written. -/
theorem Header_of_toc (E : Env) (p : Plain) (out c : Bytes) (text : Producer) (level : Int)
    (id : Bytes) (htoc : hasFlag p.flags E.HTML_TOC = true)
    (htext : ∀ q o, text q o = (q, o ++ c, true)) :
    Header E p out text level id =
      some (TocHeaderWithAnchor p c level id,
        E.doubleSpace out ++ headerOpenTag E p level id ++ c ++ headerCloseTag level) := by
  simp only [Header, htext, htoc, if_true, sliceFrom_append, Option.map_some']

theorem TocFinalize_of_open (p : Plain) (n : Nat) (h : 1 + (n : Int) = p.currentLevel) :
    (TocFinalize p).toc = (tocFinalizeStep^[n] p).toc ++ "</ul>\n".toList := by
  have hn : (p.currentLevel - 1).toNat = n := by omega
  have hcl : ∀ (m : Nat) (q : Plain),
      (tocFinalizeStep^[m] q).currentLevel = q.currentLevel - m := by
    intro m
    induction m with
    | zero => intro q; simp
    | succ m ih =>
      intro q
      rw [Function.iterate_succ_apply, ih]
      show q.currentLevel - 1 - (m : Int) = q.currentLevel - ((m + 1 : Nat) : Int)
      push_cast; omega
  have hpos : (tocFinalizeStep^[n] p).currentLevel > 0 := by rw [hcl]; omega
  simp only [TocFinalize, hn]
  rw [tocFinalizeLoop_eq_iterate n n p h le_rfl]
  simp only [hpos, if_true]

/-! ## C3: headings at levels 1, 1, 2 -/

/-- C3. On a fresh renderer in table-of-contents mode, three `Header` calls at levels 1, 1, 2
with empty ids and producers that append `A`, `B`, `C` and return true write the opening
tags with the ids `toc_0`, `toc_1`, `toc_2` in this order, and after `TocFinalize` the toc
buffer is exactly two top-level items with one single-item list nested in the second. -/
theorem c3_headers_1_1_2 (E : Env) (p : Plain) (out A B C : Bytes)
    (hfresh : p.currentLevel = 0 ∧ p.headerCount = 0 ∧ p.toc = [])
    (htoc : hasFlag p.flags E.HTML_TOC = true) :
    ∃ (p1 p2 p3 : Plain) (out1 out2 out3 : Bytes),
      Header E p out (appendProducer A true) 1 [] = some (p1, out1) ∧
      Header E p1 out1 (appendProducer B true) 1 [] = some (p2, out2) ∧
      Header E p2 out2 (appendProducer C true) 2 [] = some (p3, out3) ∧
      out1 = E.doubleSpace out ++ "<h1 id=\"toc_0\">".toList ++ A ++ "</h1>\n".toList ∧
      out2 = E.doubleSpace out1 ++ "<h1 id=\"toc_1\">".toList ++ B ++ "</h1>\n".toList ∧
      out3 = E.doubleSpace out2 ++ "<h2 id=\"toc_2\">".toList ++ C ++ "</h2>\n".toList ∧
      (TocFinalize p3).toc =
        "<ul>\n<li><a href=\"#toc_0\">".toList ++ A
          ++ "</a></li>\n<li><a href=\"#toc_1\">".toList ++ B
          ++ "</a>\n<ul>\n<li><a href=\"#toc_2\">".toList ++ C
          ++ "</a></li>\n</ul></li>\n</ul>\n".toList := by
  obtain ⟨hcl, hhc, htoc0⟩ := hfresh
  -- the three states of the table of contents
  obtain ⟨-, h1⟩ := TocHeaderWithAnchor_first p A hcl hhc htoc0
  have e1 := Header_of_toc E p out A (appendProducer A true) 1 [] htoc (fun _ _ => rfl)
  generalize hp1 : TocHeaderWithAnchor p A 1 [] = p1 at h1 e1
  have h1cl : p1.currentLevel = 1 := by rw [← hp1]; exact TocHeaderWithAnchor_currentLevel _ _ _ _
  have h1hc : p1.headerCount = 1 := by
    rw [← hp1, TocHeaderWithAnchor_headerCount, hhc]; rfl
  have h1f : hasFlag p1.flags E.HTML_TOC = true := by
    rw [← hp1, TocHeaderWithAnchor_flags]; exact htoc
  generalize ho1 : E.doubleSpace out ++ headerOpenTag E p 1 [] ++ A ++ headerCloseTag 1 = out1
    at e1
  have e2 := Header_of_toc E p1 out1 B (appendProducer B true) 1 [] h1f (fun _ _ => rfl)
  have h2 := TocHeaderWithAnchor_toc p1 B 1 []
  rw [tocTransition_up p1 1 0 (by rw [h1cl]; rfl), Function.iterate_zero, id_eq, h1, h1hc,
    Itoa_one] at h2
  generalize hp2 : TocHeaderWithAnchor p1 B 1 [] = p2 at h2 e2
  have h2cl : p2.currentLevel = 1 := by rw [← hp2]; exact TocHeaderWithAnchor_currentLevel _ _ _ _
  have h2hc : p2.headerCount = 2 := by
    rw [← hp2, TocHeaderWithAnchor_headerCount, h1hc]; rfl
  have h2f : hasFlag p2.flags E.HTML_TOC = true := by
    rw [← hp2, TocHeaderWithAnchor_flags]; exact h1f
  generalize ho2 : E.doubleSpace out1 ++ headerOpenTag E p1 1 [] ++ B ++ headerCloseTag 1
    = out2 at e2
  have e3 := Header_of_toc E p2 out2 C (appendProducer C true) 2 [] h2f (fun _ _ => rfl)
  have h2s : p2.toc = ("<ul>\n<li><a href=\"#toc_0\">".toList ++ A
      ++ "</a></li>\n<li><a href=\"#toc_1\">".toList ++ B ++ "</a>".toList)
      ++ "</li>\n".toList := by rw [h2]; simp
  have h3 := TocHeaderWithAnchor_toc p2 C 2 []
  rw [tocTransition_up p2 2 1 (by rw [h2cl]; rfl), Function.iterate_one,
    tocOpenStep_toc_of_suffix p2 _ h2s (by simp), h2hc, Itoa_two] at h3
  generalize hp3 : TocHeaderWithAnchor p2 C 2 [] = p3 at h3 e3
  have h3cl : p3.currentLevel = 2 := by rw [← hp3]; exact TocHeaderWithAnchor_currentLevel _ _ _ _
  have hfin := TocFinalize_of_open p3 1 (by rw [h3cl]; rfl)
  rw [Function.iterate_one] at hfin
  refine ⟨p1, p2, p3, out1, out2, _, e1, e2, e3, ?_, ?_, ?_, ?_⟩
  · rw [← ho1]
    simp [headerOpenTag, headerCloseTag, htoc, hhc, Itoa_zero, Itoa_one]
  · rw [← ho2]
    simp [headerOpenTag, headerCloseTag, h1f, h1hc, Itoa_one]
  · simp [headerOpenTag, headerCloseTag, h2f, h2hc, Itoa_two]
  · rw [hfin]
    simp [tocFinalizeStep, h3]

/-- C3 in the sample environment, on an empty output buffer. -/
theorem c3_headers_1_1_2_witness :
    ∃ (p1 p2 p3 : Plain) (out1 out2 out3 : Bytes),
      Header sampleEnv (freshPlain 128) [] (appendProducer "A".toList true) 1 []
        = some (p1, out1) ∧
      Header sampleEnv p1 out1 (appendProducer "B".toList true) 1 [] = some (p2, out2) ∧
      Header sampleEnv p2 out2 (appendProducer "C".toList true) 2 [] = some (p3, out3) ∧
      out1 = sampleEnv.doubleSpace [] ++ "<h1 id=\"toc_0\">".toList ++ "A".toList
        ++ "</h1>\n".toList ∧
      out2 = sampleEnv.doubleSpace out1 ++ "<h1 id=\"toc_1\">".toList ++ "B".toList
        ++ "</h1>\n".toList ∧
      out3 = sampleEnv.doubleSpace out2 ++ "<h2 id=\"toc_2\">".toList ++ "C".toList
        ++ "</h2>\n".toList ∧
      (TocFinalize p3).toc =
        "<ul>\n<li><a href=\"#toc_0\">".toList ++ "A".toList
          ++ "</a></li>\n<li><a href=\"#toc_1\">".toList ++ "B".toList
          ++ "</a>\n<ul>\n<li><a href=\"#toc_2\">".toList ++ "C".toList
          ++ "</a></li>\n</ul></li>\n</ul>\n".toList :=
  c3_headers_1_1_2 sampleEnv (freshPlain 128) [] "A".toList "B".toList "C".toList
    ⟨rfl, rfl, rfl⟩ (by decide)

/-! ## C5: the id of a heading and the target of its entry -/

/-- C5. For a `Header` call in table-of-contents mode whose producer appends `c`, leaves the
renderer state alone and returns true: the output buffer receives the opening tag with the
id `I`, then `c`, then the closing tag, and the toc buffer receives, after the markup of the
level transition, the item that links to the same `I` with the label `c`; `I` is the
explicit id when there is one and `toc_` followed by the decimal `headerCount` at entry
otherwise. -/
theorem c5_heading_id_is_toc_target (E : Env) (p : Plain) (out c : Bytes) (text : Producer)
    (level : Int) (id : Bytes) (htoc : hasFlag p.flags E.HTML_TOC = true)
    (htext : ∀ q o, text q o = (q, o ++ c, true)) :
    ∃ p1 : Plain,
      Header E p out text level id =
        some (p1, E.doubleSpace out
          ++ ("<h".toList ++ Itoa level ++ " id=\"".toList
            ++ (if id ≠ [] then id else "toc_".toList ++ Itoa p.headerCount) ++ "\">".toList)
          ++ c ++ ("</h".toList ++ Itoa level ++ ">\n".toList)) ∧
      p1.toc = (tocTransition p level).toc
        ++ ("<li><a href=\"#".toList
          ++ (if id ≠ [] then id else "toc_".toList ++ Itoa p.headerCount) ++ "\">".toList
          ++ c ++ "</a></li>\n".toList) := by
  refine ⟨TocHeaderWithAnchor p c level id, ?_, TocHeaderWithAnchor_toc p c level id⟩
  rw [Header_of_toc E p out c text level id htoc htext]
  by_cases hid : id = []
  · simp [headerOpenTag, headerCloseTag, hid, htoc]
  · simp [headerOpenTag, headerCloseTag, hid]

/-- C5 for a level-2 heading with the explicit id `intro` and the content `Hi`. -/
theorem c5_heading_id_is_toc_target_witness :
    ∃ p1 : Plain,
      Header sampleEnv (freshPlain 128) [] (appendProducer "Hi".toList true) 2 "intro".toList =
        some (p1, sampleEnv.doubleSpace []
          ++ ("<h".toList ++ Itoa 2 ++ " id=\"".toList
            ++ (if "intro".toList ≠ [] then "intro".toList
                else "toc_".toList ++ Itoa (freshPlain 128).headerCount) ++ "\">".toList)
          ++ "Hi".toList ++ ("</h".toList ++ Itoa 2 ++ ">\n".toList)) ∧
      p1.toc = (tocTransition (freshPlain 128) 2).toc
        ++ ("<li><a href=\"#".toList
          ++ (if "intro".toList ≠ [] then "intro".toList
              else "toc_".toList ++ Itoa (freshPlain 128).headerCount) ++ "\">".toList
          ++ "Hi".toList ++ "</a></li>\n".toList) :=
  c5_heading_id_is_toc_target sampleEnv (freshPlain 128) [] "Hi".toList
    (appendProducer "Hi".toList true) 2 "intro".toList (by decide) (fun _ _ => rfl)

/-! ## C6: the counter and explicit anchors -/

/-- C6, as stated, fails: registering a heading with the explicit anchor `intro` on a fresh
state changes `headerCount` (from 0 to 1). -/
theorem c6_explicit_anchor_changes_count :
    ¬ ((TocHeaderWithAnchor (freshPlain 128) "A".toList 1 "intro".toList).headerCount
        = (freshPlain 128).headerCount) := by
  decide

/-- C6, amended. Every registration consumes a counter value: for every state, text, level
and anchor, explicit or not, `TocHeaderWithAnchor` increases `headerCount` by exactly one,
and so does a `Header` call in table-of-contents mode whose producer appends, leaves the
state alone and returns true. -/
theorem c6_every_registration_increments (E : Env) (p : Plain) (out c : Bytes)
    (text : Producer) (level : Int) (anchor : Bytes) :
    (TocHeaderWithAnchor p c level anchor).headerCount = p.headerCount + 1 ∧
    (hasFlag p.flags E.HTML_TOC = true → (∀ q o, text q o = (q, o ++ c, true)) →
      ∃ p1 out1, Header E p out text level anchor = some (p1, out1) ∧
        p1.headerCount = p.headerCount + 1) := by
  refine ⟨TocHeaderWithAnchor_headerCount p c level anchor, fun htoc htext => ?_⟩
  exact ⟨_, _, Header_of_toc E p out c text level anchor htoc htext,
    TocHeaderWithAnchor_headerCount p c level anchor⟩

/-- The amended C6 for a heading with the explicit id `intro`. -/
theorem c6_every_registration_increments_witness :
    ∃ p1 out1, Header sampleEnv (freshPlain 128) [] (appendProducer "A".toList true) 1
        "intro".toList = some (p1, out1) ∧ p1.headerCount = (freshPlain 128).headerCount + 1 :=
  (c6_every_registration_increments sampleEnv (freshPlain 128) [] "A".toList
    (appendProducer "A".toList true) 1 "intro".toList).2 (by decide) (fun _ _ => rfl)

/-! ## C8, C9, C10: document header and footer -/

theorem tocFinalizeLoop_frame (fuel : Nat) : ∀ p : Plain,
    (tocFinalizeLoop fuel p).flags = p.flags ∧
    (tocFinalizeLoop fuel p).tocMarker = p.tocMarker ∧
    (tocFinalizeLoop fuel p).headerCount = p.headerCount := by
  induction fuel with
  | zero => intro p; exact ⟨rfl, rfl, rfl⟩
  | succ f ih =>
    intro p
    by_cases h : p.currentLevel > 1
    · simp only [tocFinalizeLoop, h, if_true]
      exact ih (tocFinalizeStep p)
    · simp only [tocFinalizeLoop, h, if_false, and_self]

theorem TocFinalize_frame (p : Plain) :
    (TocFinalize p).flags = p.flags ∧ (TocFinalize p).tocMarker = p.tocMarker ∧
    (TocFinalize p).headerCount = p.headerCount := by
  have h := tocFinalizeLoop_frame (p.currentLevel - 1).toNat p
  unfold TocFinalize
  by_cases hc : (tocFinalizeLoop (p.currentLevel - 1).toNat p).currentLevel > 0
  · simpa only [hc, if_true] using h
  · simpa only [hc, if_false] using h

/-- C8. `DocumentFooter` for the first section in table-of-contents mode, with the mark `m`
inside the output buffer: the result is the bytes before the mark, a newline in
complete-page mode, the finalized table of contents inside `<nav>`, a newline when neither
complete-page nor omit-contents is set, the bytes after the mark unless omit-contents is
set, and the closing markup of the page in complete-page mode. -/
theorem c8_footer_splices_toc (E : Env) (p : Plain) (out : Bytes) (m : Nat)
    (htoc : hasFlag p.flags E.HTML_TOC = true) (hm : p.tocMarker = m)
    (hle : m ≤ out.length) :
    DocumentFooter E p out true =
      some (TocFinalize p,
        out.take m
          ++ (if hasFlag p.flags E.HTML_COMPLETE_PAGE then "\n".toList else [])
          ++ "<nav>\n".toList ++ (TocFinalize p).toc ++ "</nav>\n".toList
          ++ (if !hasFlag p.flags E.HTML_COMPLETE_PAGE && !hasFlag p.flags E.HTML_OMIT_CONTENTS
              then "\n".toList else [])
          ++ (if !hasFlag p.flags E.HTML_OMIT_CONTENTS then out.drop m else [])
          ++ (if hasFlag p.flags E.HTML_COMPLETE_PAGE then "\n</body>\n</html>\n".toList
              else [])) := by
  obtain ⟨hf, hmk, -⟩ := TocFinalize_frame p
  have hrange : 0 ≤ (m : Int) ∧ (m : Int) ≤ (out.length : Int) := ⟨by omega, by omega⟩
  simp only [DocumentFooter, htoc, hf, hmk, hm, sliceFrom, Truncate, hrange, pageFooter,
    Int.toNat_ofNat]
  cases hasFlag p.flags E.HTML_COMPLETE_PAGE <;> cases hasFlag p.flags E.HTML_OMIT_CONTENTS <;>
    simp

/-- C8 on the buffer `headbody` with the mark after `head`, in complete-page mode. -/
theorem c8_footer_splices_toc_witness :
    DocumentFooter sampleEnv { freshPlain 640 with tocMarker := 4 } "headbody".toList true =
      some (TocFinalize { freshPlain 640 with tocMarker := 4 },
        "head".toList ++ "\n".toList ++ "<nav>\n".toList ++ "</nav>\n".toList
          ++ "body".toList ++ "\n</body>\n</html>\n".toList) := by
  have h := c8_footer_splices_toc sampleEnv { freshPlain 640 with tocMarker := 4 }
    "headbody".toList 4 (by decide) rfl (by decide)
  rw [h]
  rfl

/-- C9, as stated, fails: with table-of-contents mode on and complete-page mode off,
`DocumentHeader` on the buffer `x` leaves `tocMarker` at 0, not at the length 1. -/
theorem c9_mark_not_captured_without_complete_page :
    hasFlag (freshPlain 128).flags sampleEnv.HTML_TOC = true ∧
    (DocumentHeader sampleEnv (freshPlain 128) "x".toList true).1.tocMarker = 0 ∧
    (DocumentHeader sampleEnv (freshPlain 128) "x".toList true).1.tocMarker
      ≠ ((DocumentHeader sampleEnv (freshPlain 128) "x".toList true).2.length : Int) := by
  decide

/-- C9, amended. `DocumentHeader` for the first section captures the mark in complete-page
mode only: when complete-page mode is set, `tocMarker` after the call is the length of the
output buffer after the call, whether or not table-of-contents mode is active; when it is
not set, the call leaves the renderer and the buffer as they were. -/
theorem c9_mark_captured_in_complete_page (E : Env) (p : Plain) (out : Bytes) :
    (hasFlag p.flags E.HTML_COMPLETE_PAGE = true →
      (DocumentHeader E p out true).1.tocMarker
        = ((DocumentHeader E p out true).2.length : Int)) ∧
    (hasFlag p.flags E.HTML_COMPLETE_PAGE = false → DocumentHeader E p out true = (p, out)) := by
  constructor
  · intro h
    simp only [DocumentHeader, h, Bool.not_true, Bool.not_false, Bool.false_eq_true, if_false]
  · intro h
    simp only [DocumentHeader, h, Bool.not_true, Bool.not_false, Bool.false_eq_true, if_false,
      if_true]

/-- The amended C9 in complete-page mode and table-of-contents mode, on the buffer `x`. -/
theorem c9_mark_captured_in_complete_page_witness :
    (DocumentHeader sampleEnv (freshPlain 640) "x".toList true).1.tocMarker
      = ((DocumentHeader sampleEnv (freshPlain 640) "x".toList true).2.length : Int) :=
  (c9_mark_captured_in_complete_page sampleEnv (freshPlain 640) "x".toList).1 (by decide)

/-- C10. `DocumentHeader` and `DocumentFooter` called with `first = false` return with the
renderer state (so `tocMarker`, the toc buffer, `currentLevel` and `headerCount`) and the
output buffer as they were, whatever the flags. -/
theorem c10_later_sections_do_nothing (E : Env) (p : Plain) (out : Bytes) :
    DocumentHeader E p out false = (p, out) ∧ DocumentFooter E p out false = some (p, out) :=
  ⟨rfl, rfl⟩

/-! ## Decimal numbers -/

theorem digitChar_toNat (d : Nat) (h : d < 10) : (digitChar d).toNat = 48 + d := by
  interval_cases d <;> rfl

theorem decimalValue_append_singleton (s : Bytes) (c : Char) :
    decimalValue (s ++ [c]) = 10 * decimalValue s + (c.toNat - 48) := by
  simp [decimalValue, List.foldl_append]

/-- Reading the digits of `n` back gives `n`, as soon as the fuel exceeds `n`. -/
theorem decimalValue_decimalDigits : ∀ (fuel n : Nat), n < fuel →
    decimalValue (decimalDigits fuel n) = n := by
  intro fuel
  induction fuel with
  | zero => intro n h; omega
  | succ f ih =>
    intro n h
    by_cases h10 : n < 10
    · simp [decimalDigits, h10, decimalValue, digitChar_toNat n h10]
    · have hlt : n % 10 < 10 := Nat.mod_lt _ (by decide)
      simp only [decimalDigits, h10, if_false, decimalValue_append_singleton,
        digitChar_toNat _ hlt]
      rw [ih (n / 10) (by omega)]
      omega

/-- Every byte of a decimal representation is a digit. -/
theorem mem_decimalDigits : ∀ (fuel n : Nat) (c : Char), c ∈ decimalDigits fuel n →
    ∃ d, d < 10 ∧ c = digitChar d := by
  intro fuel
  induction fuel with
  | zero => intro n c h; simp [decimalDigits] at h
  | succ f ih =>
    intro n c h
    by_cases h10 : n < 10
    · simp only [decimalDigits, h10, if_true, List.mem_singleton] at h
      exact ⟨n, h10, h⟩
    · simp only [decimalDigits, h10, if_false, List.mem_append, List.mem_singleton] at h
      rcases h with h | h
      · exact ih _ _ h
      · exact ⟨n % 10, Nat.mod_lt _ (by decide), h⟩

theorem digitChar_ne (c : Char) (hc : c.toNat < 48 ∨ 57 < c.toNat) (d : Nat) (h : d < 10) :
    c ≠ digitChar d := by
  intro heq
  have := digitChar_toNat d h
  rw [← heq] at this
  omega

/-- The decimal representation determines the number. -/
theorem Itoa_injective (a b : Int) (h : Itoa a = Itoa b) : a = b := by
  have hminus : ∀ fuel n, ¬ ('-' ∈ decimalDigits fuel n) := by
    intro fuel n hmem
    obtain ⟨d, hd, heq⟩ := mem_decimalDigits fuel n _ hmem
    exact digitChar_ne '-' (Or.inl (by decide)) d hd heq
  have hval : ∀ m n : Nat, decimalDigits (m + 1) m = decimalDigits (n + 1) n → m = n := by
    intro m n hmn
    have := congrArg decimalValue hmn
    rwa [decimalValue_decimalDigits _ _ (Nat.lt_succ_self m),
      decimalValue_decimalDigits _ _ (Nat.lt_succ_self n)] at this
  unfold Itoa at h
  by_cases ha : a < 0 <;> by_cases hb : b < 0
  · simp only [ha, hb, if_true] at h
    have := hval _ _ (List.append_cancel_left h)
    omega
  · simp only [ha, hb, if_true, if_false] at h
    exact absurd (h ▸ List.mem_append_left _ (by decide : '-' ∈ "-".toList)) (hminus _ _)
  · simp only [ha, hb, if_true, if_false] at h
    exact absurd (h ▸ List.mem_append_left _ (by decide : '-' ∈ "-".toList)) (hminus _ _)
  · simp only [ha, hb, if_false] at h
    have := hval _ _ h
    omega

/-! ## C7: generated ids are not reused -/

theorem Truncate_map_fst (buf : Bytes) (n : Int) (q p1 : Plain) (out1 : Bytes)
    (h : (Truncate buf n).map (fun o => (q, o)) = some (p1, out1)) : p1 = q := by
  cases hT : Truncate buf n with
  | none => rw [hT] at h; simp at h
  | some o =>
    rw [hT] at h
    simp only [Option.map_some', Option.some.injEq, Prod.mk.injEq] at h
    exact h.1.symm

theorem wrapInt64_of_range (x : Int) (h1 : minInt64 ≤ x) (h2 : x ≤ maxInt64) :
    wrapInt64 x = x := by
  unfold wrapInt64
  unfold minInt64 at h1
  unfold maxInt64 at h2
  norm_num at h1 h2 ⊢
  omega

theorem wrapInt64_max_succ : wrapInt64 (maxInt64 + 1) = minInt64 := by decide

theorem minInt64_lt_maxInt64 : minInt64 < maxInt64 := by decide

/-- What a call does to the counter, producers aside: it leaves it as the producer left it,
or adds one to it. -/
theorem Header_headerCount_cases (E : Env) (p : Plain) (out : Bytes) (text : Producer)
    (level : Int) (id : Bytes) (hp : InIntRange p) (hk : KeepsCount text)
    (hr : KeepsRange text) (p1 : Plain) (out1 : Bytes)
    (h : Header E p out text level id = some (p1, out1)) :
    ∃ q : Plain, InIntRange q ∧ p.headerCount ≤ q.headerCount ∧
      (p1.headerCount = q.headerCount ∨ p1.headerCount = q.headerCount + 1) := by
  have hq := hk p (E.doubleSpace out ++ headerOpenTag E p level id)
  have hq2 := hr p (E.doubleSpace out ++ headerOpenTag E p level id) hp
  rcases ht : text p (E.doubleSpace out ++ headerOpenTag E p level id) with ⟨q, o, b⟩
  rw [ht] at hq hq2
  simp only at hq hq2
  refine ⟨q, hq2, hq, ?_⟩
  cases b with
  | false =>
    simp only [Header, ht] at h
    rw [Truncate_map_fst _ _ _ _ _ h]
    exact Or.inl rfl
  | true =>
    by_cases hf : hasFlag q.flags E.HTML_TOC = true
    · simp only [Header, ht, hf, if_true] at h
      cases hs : sliceFrom o ((E.doubleSpace out ++ headerOpenTag E p level id).length : Int)
        with
      | none => rw [hs] at h; simp at h
      | some t =>
        rw [hs] at h
        simp only [Option.map_some', Option.some.injEq, Prod.mk.injEq] at h
        rw [← h.1, TocHeaderWithAnchor_headerCount]
        exact Or.inr rfl
    · rw [Bool.not_eq_true] at hf
      simp only [Header, ht, hf, Bool.false_eq_true, if_false, Option.some.injEq,
        Prod.mk.injEq] at h
      rw [← h.1]
      exact Or.inl rfl

theorem List_headerCount_cases (E : Env) (p : Plain) (out : Bytes) (text : Producer)
    (flags start : Int) (group : Bytes) (hp : InIntRange p) (hk : KeepsCount text)
    (hr : KeepsRange text) (p1 : Plain) (out1 : Bytes)
    (h : Plain.List E p out text flags start group = some (p1, out1)) :
    ∃ q : Plain, InIntRange q ∧ p.headerCount ≤ q.headerCount ∧
      (p1.headerCount = q.headerCount ∨ p1.headerCount = q.headerCount + 1) := by
  have hq := hk p (E.doubleSpace out ++ listOpenTag E flags)
  have hq2 := hr p (E.doubleSpace out ++ listOpenTag E flags) hp
  rcases ht : text p (E.doubleSpace out ++ listOpenTag E flags) with ⟨q, o, b⟩
  rw [ht] at hq hq2
  simp only at hq hq2
  refine ⟨q, hq2, hq, Or.inl ?_⟩
  cases b with
  | false =>
    simp only [Plain.List, ht] at h
    rw [Truncate_map_fst _ _ _ _ _ h]
  | true =>
    simp only [Plain.List, ht] at h
    split at h <;>
      (simp only [Option.some.injEq, Prod.mk.injEq] at h; rw [← h.1])

theorem Paragraph_headerCount_cases (E : Env) (p : Plain) (out : Bytes) (text : Producer)
    (flags : Int) (hp : InIntRange p) (hk : KeepsCount text) (hr : KeepsRange text)
    (p1 : Plain) (out1 : Bytes) (h : Paragraph E p out text flags = some (p1, out1)) :
    ∃ q : Plain, InIntRange q ∧ p.headerCount ≤ q.headerCount ∧
      (p1.headerCount = q.headerCount ∨ p1.headerCount = q.headerCount + 1) := by
  have hq := hk p (E.doubleSpace out ++ "<p>".toList)
  have hq2 := hr p (E.doubleSpace out ++ "<p>".toList) hp
  rcases ht : text p (E.doubleSpace out ++ "<p>".toList) with ⟨q, o, b⟩
  rw [ht] at hq hq2
  simp only at hq hq2
  refine ⟨q, hq2, hq, Or.inl ?_⟩
  cases b with
  | false =>
    simp only [Paragraph, ht] at h
    rw [Truncate_map_fst _ _ _ _ _ h]
  | true =>
    simp only [Paragraph, ht, Option.some.injEq, Prod.mk.injEq] at h
    rw [← h.1]

theorem DocumentHeader_headerCount (E : Env) (p : Plain) (out : Bytes) (first : Bool) :
    (DocumentHeader E p out first).1.headerCount = p.headerCount := by
  unfold DocumentHeader
  split
  · rfl
  · split <;> rfl

theorem DocumentFooter_headerCount (E : Env) (p : Plain) (out : Bytes) (first : Bool)
    (p1 : Plain) (out1 : Bytes) (h : DocumentFooter E p out first = some (p1, out1)) :
    p1.headerCount = p.headerCount := by
  unfold DocumentFooter at h
  cases first with
  | false =>
    simp only [Bool.not_false, if_true, Option.some.injEq, Prod.mk.injEq] at h
    rw [← h.1]
  | true =>
    cases hf : hasFlag p.flags E.HTML_TOC with
    | false =>
      simp only [hf, Bool.not_true, Bool.false_eq_true, if_false, Option.some.injEq,
        Prod.mk.injEq] at h
      rw [← h.1]
    | true =>
      simp only [hf, Bool.not_true, Bool.false_eq_true, if_false, if_true] at h
      cases hs : sliceFrom out (TocFinalize p).tocMarker with
      | none => rw [hs] at h; simp at h
      | some temp =>
        cases hT : Truncate out (TocFinalize p).tocMarker with
        | none => rw [hs, hT] at h; simp at h
        | some o =>
          rw [hs, hT] at h
          simp only [Option.some.injEq, Prod.mk.injEq] at h
          rw [← h.1]
          exact (TocFinalize_frame p).2.2

/-- What a call of the renderer does to the counter, taken in the integers: after its
producer, which leaves a counter in range that is not below the one at entry, the call
leaves the counter as it is or adds one to it. -/
theorem Op_run_headerCount_cases (E : Env) (op : Op) (p : Plain) (out : Bytes) (p1 : Plain)
    (out1 : Bytes) (hp : InIntRange p)
    (hk : ∀ t ∈ op.producers, KeepsCount t ∧ KeepsRange t)
    (h : op.run E p out = some (p1, out1)) :
    ∃ q : Plain, InIntRange q ∧ p.headerCount ≤ q.headerCount ∧
      (p1.headerCount = q.headerCount ∨ p1.headerCount = q.headerCount + 1) := by
  cases op with
  | header text level id =>
    have hh := hk text (by simp [Op.producers])
    exact Header_headerCount_cases E p out text level id hp hh.1 hh.2 _ _ h
  | paragraph text flags =>
    have hh := hk text (by simp [Op.producers])
    exact Paragraph_headerCount_cases E p out text flags hp hh.1 hh.2 _ _ h
  | list text flags start group =>
    have hh := hk text (by simp [Op.producers])
    exact List_headerCount_cases E p out text flags start group hp hh.1 hh.2 _ _ h
  | footnotes text =>
    have hh := hk text (by simp [Op.producers])
    simp only [Op.run, Footnotes] at h
    cases hl : Plain.List E p (HRule E p (out ++ "<div class=\"footnotes\">\n".toList)) text
        E.LIST_TYPE_ORDERED 0 [] with
    | none => rw [hl] at h; simp at h
    | some r =>
      rw [hl] at h
      simp only [Option.map_some', Option.some.injEq, Prod.mk.injEq] at h
      rw [← h.1]
      exact List_headerCount_cases E p _ text _ _ _ hp hh.1 hh.2 r.1 r.2 hl
  | documentHeader first =>
    simp only [Op.run, Option.some.injEq] at h
    have := DocumentHeader_headerCount E p out first
    rw [h] at this
    exact ⟨p, hp, le_rfl, Or.inl this⟩
  | documentFooter first =>
    exact ⟨p, hp, le_rfl, Or.inl (DocumentFooter_headerCount E p out first p1 out1 h)⟩
  | tocHeaderWithAnchor text level anchor =>
    simp only [Op.run, Option.some.injEq, Prod.mk.injEq] at h
    refine ⟨p, hp, le_rfl, Or.inr ?_⟩
    rw [← h.1, TocHeaderWithAnchor_headerCount]
  | tocHeader text level =>
    simp only [Op.run, Option.some.injEq, Prod.mk.injEq, TocHeader] at h
    refine ⟨p, hp, le_rfl, Or.inr ?_⟩
    rw [← h.1, TocHeaderWithAnchor_headerCount]
  | tocFinalize =>
    simp only [Op.run, Option.some.injEq, Prod.mk.injEq] at h
    refine ⟨p, hp, le_rfl, Or.inl ?_⟩
    rw [← h.1]
    exact (TocFinalize_frame p).2.2
  | setInlineAttr i =>
    simp only [Op.run, Option.some.injEq, Prod.mk.injEq] at h
    refine ⟨p, hp, le_rfl, Or.inl ?_⟩
    rw [← h.1]
    rfl
  | write render =>
    simp only [Op.run, Option.some.injEq, Prod.mk.injEq] at h
    refine ⟨p, hp, le_rfl, Or.inl ?_⟩
    rw [← h.1]

/-- On a 64-bit platform no call of the renderer lowers the counter, except that the
increment at the largest `int` leaves the smallest `int`. -/
theorem Op_run64_headerCount (E : Env) (op : Op) (p : Plain) (out : Bytes) (p1 : Plain)
    (out1 : Bytes) (hp : InIntRange p)
    (hk : ∀ t ∈ op.producers, KeepsCount t ∧ KeepsRange t)
    (h : op.run64 E p out = some (p1, out1)) :
    p.headerCount ≤ p1.headerCount ∨ p1.headerCount = minInt64 := by
  unfold Op.run64 at h
  cases hrun : op.run E p out with
  | none => rw [hrun] at h; simp at h
  | some r =>
    rw [hrun] at h
    simp only [Option.map_some', Option.some.injEq, Prod.mk.injEq] at h
    obtain ⟨q, hq, hle, hcase⟩ := Op_run_headerCount_cases E op p out r.1 r.2 hp hk hrun
    have hcount : p1.headerCount = wrapInt64 r.1.headerCount := by rw [← h.1]; rfl
    rcases hcase with hc | hc
    · left
      rw [hcount, hc, wrapInt64_of_range _ hq.1 hq.2]
      exact hle
    · by_cases hmax : q.headerCount = maxInt64
      · right
        rw [hcount, hc, hmax]
        exact wrapInt64_max_succ
      · left
        have hlt : q.headerCount < maxInt64 := lt_of_le_of_ne hq.2 hmax
        rw [hcount, hc, wrapInt64_of_range _ (by have := hq.1; omega) (by omega)]
        omega

/-- Below the largest `int` the method on a 64-bit platform is the method taken in the
integers. -/
theorem TocHeaderWithAnchor64_eq (p : Plain) (text : Bytes) (level : Int) (anchor : Bytes)
    (h1 : minInt64 ≤ p.headerCount) (h2 : p.headerCount < maxInt64) :
    TocHeaderWithAnchor64 p text level anchor = TocHeaderWithAnchor p text level anchor := by
  have hc := TocHeaderWithAnchor_headerCount p text level anchor
  have hw : wrapInt64 (TocHeaderWithAnchor p text level anchor).headerCount
      = (TocHeaderWithAnchor p text level anchor).headerCount := by
    rw [hc]
    exact wrapInt64_of_range _ (by omega) (by omega)
  simp only [TocHeaderWithAnchor64, onMachine64, hw]

theorem TocHeaderWithAnchor64_toc (p : Plain) (text : Bytes) (level : Int) (anchor : Bytes) :
    (TocHeaderWithAnchor64 p text level anchor).toc
      = (TocHeaderWithAnchor p text level anchor).toc := rfl

/-- The bytes read off the buffer after a registration are the item of the heading. -/
theorem writtenItem_eq (p : Plain) (r : Registration) :
    writtenItem p r = "<li><a href=\"#".toList
      ++ (if r.anchor ≠ [] then r.anchor else "toc_".toList ++ Itoa p.headerCount)
      ++ "\">".toList ++ r.text ++ "</a></li>\n".toList := by
  unfold writtenItem register64
  rw [TocHeaderWithAnchor64_toc, TocHeaderWithAnchor_toc, List.drop_left]

theorem takeWhile_append_stop (f : Char → Bool) (l : Bytes) (c : Char) (rest : Bytes)
    (hl : ∀ x ∈ l, f x = true) (hc : f c = false) :
    (l ++ c :: rest).takeWhile f = l := by
  induction l with
  | nil => simp [List.takeWhile, hc]
  | cons a l ih =>
    have ha := hl a (List.mem_cons_self _ _)
    simp [List.takeWhile_cons, ha, ih (fun x hx => hl x (List.mem_cons_of_mem _ hx))]

/-- A generated target holds no double quote. -/
theorem quote_not_mem_generated (n : Int) : '"' ∉ "toc_".toList ++ Itoa n := by
  have hd : ∀ fuel m, '"' ∉ decimalDigits fuel m := by
    intro fuel m hmem
    obtain ⟨d, hd, heq⟩ := mem_decimalDigits fuel m _ hmem
    exact digitChar_ne '"' (Or.inl (by decide)) d hd heq
  intro hmem
  rcases List.mem_append.mp hmem with h | h
  · exact absurd h (by decide)
  · unfold Itoa at h
    split at h
    · rcases List.mem_append.mp h with h | h
      · exact absurd h (by decide)
      · exact hd _ _ h
    · exact hd _ _ h

/-- The target read off the item of a heading without an explicit anchor is `toc_`
followed by the decimal counter at entry. -/
theorem itemTarget_writtenItem (p : Plain) (r : Registration) (ha : r.anchor = []) :
    itemTarget (writtenItem p r) = "toc_".toList ++ Itoa p.headerCount := by
  have hitem : writtenItem p r = "<li><a href=\"#".toList
      ++ (("toc_".toList ++ Itoa p.headerCount)
        ++ '"' :: (">".toList ++ r.text ++ "</a></li>\n".toList)) := by
    rw [writtenItem_eq]
    simp [ha]
  unfold itemTarget
  rw [hitem, List.drop_left]
  apply takeWhile_append_stop
  · intro x hx
    have hne : x ≠ '"' := fun h => quote_not_mem_generated p.headerCount (h ▸ hx)
    simpa using hne
  · decide

theorem register64_headerCount (p : Plain) (r : Registration)
    (h1 : minInt64 ≤ p.headerCount) (h2 : p.headerCount < maxInt64) :
    (register64 p r).headerCount = p.headerCount + 1 := by
  unfold register64
  rw [TocHeaderWithAnchor64_eq p _ _ _ h1 h2, TocHeaderWithAnchor_headerCount]

/-- While the counter has room for the registrations, every target read off the buffer is
`toc_<n>` for a counter value `n` that the sequence passes. -/
theorem writtenTargets_range (rs : List Registration) : ∀ (p : Plain) (t : Bytes),
    minInt64 ≤ p.headerCount → p.headerCount + (rs.length : Int) ≤ maxInt64 →
    t ∈ writtenTargets p rs →
    ∃ n : Int, p.headerCount ≤ n ∧ n < p.headerCount + (rs.length : Int) ∧
      t = "toc_".toList ++ Itoa n := by
  induction rs with
  | nil => intro p t _ _ h; simp [writtenTargets] at h
  | cons r rs ih =>
    intro p t h1 h2 h
    have hlen : ((r :: rs).length : Int) = (rs.length : Int) + 1 := by simp
    rw [hlen] at h2 ⊢
    have hreg := register64_headerCount p r h1 (by omega)
    have htail : t ∈ writtenTargets (register64 p r) rs →
        ∃ n : Int, p.headerCount ≤ n ∧ n < p.headerCount + ((rs.length : Int) + 1) ∧
          t = "toc_".toList ++ Itoa n := by
      intro ht
      obtain ⟨n, hn1, hn2, hEq⟩ := ih _ _ (by rw [hreg]; omega) (by rw [hreg]; omega) ht
      rw [hreg] at hn1 hn2
      exact ⟨n, by omega, by omega, hEq⟩
    by_cases ha : r.anchor = []
    · simp only [writtenTargets, ha, if_true, List.mem_cons] at h
      rcases h with h | h
      · exact ⟨p.headerCount, le_rfl, by omega, by rw [h, itemTarget_writtenItem p r ha]⟩
      · exact htail h
    · simp only [writtenTargets, ha, if_false] at h
      exact htail h

theorem writtenTargets_nodup (rs : List Registration) : ∀ p : Plain,
    minInt64 ≤ p.headerCount → p.headerCount + (rs.length : Int) ≤ maxInt64 →
    (writtenTargets p rs).Nodup := by
  induction rs with
  | nil => intro p _ _; simp [writtenTargets]
  | cons r rs ih =>
    intro p h1 h2
    have hlen : ((r :: rs).length : Int) = (rs.length : Int) + 1 := by simp
    rw [hlen] at h2
    have hreg := register64_headerCount p r h1 (by omega)
    have hrec := ih (register64 p r) (by rw [hreg]; omega) (by rw [hreg]; omega)
    by_cases ha : r.anchor = []
    · simp only [writtenTargets, ha, if_true, List.nodup_cons]
      refine ⟨?_, hrec⟩
      intro hmem
      obtain ⟨n, hn, -, hEq⟩ := writtenTargets_range rs _ _ (by rw [hreg]; omega)
        (by rw [hreg]; omega) hmem
      rw [itemTarget_writtenItem p r ha] at hEq
      have := Itoa_injective _ _ (List.append_cancel_left hEq)
      rw [hreg] at hn
      omega
    · simp only [writtenTargets, ha, if_false]
      exact hrec

/-- C7, as stated, fails on a 64-bit platform: from a state whose counter is the largest
`int`, registering a heading with an empty anchor does not increase `headerCount` by one
but leaves the smallest `int`, so `headerCount` decreases. -/
theorem c7_counter_wraps_at_largest_int :
    (TocHeaderWithAnchor64 { freshPlain 0 with headerCount := maxInt64 } "A".toList 1
        []).headerCount = minInt64 ∧
    (TocHeaderWithAnchor64 { freshPlain 0 with headerCount := maxInt64 } "A".toList 1
        []).headerCount < ({ freshPlain 0 with headerCount := maxInt64 } : Plain).headerCount
    := by
  have h : (TocHeaderWithAnchor64 { freshPlain 0 with headerCount := maxInt64 } "A".toList 1
      []).headerCount = minInt64 := by
    show wrapInt64 (TocHeaderWithAnchor { freshPlain 0 with headerCount := maxInt64 }
      "A".toList 1 []).headerCount = minInt64
    rw [TocHeaderWithAnchor_headerCount]
    exact wrapInt64_max_succ
  exact ⟨h, by rw [h]; exact minInt64_lt_maxInt64⟩

/-- C7, amended. On a 64-bit platform: registering a heading with an empty anchor
(`TocHeaderWithAnchor` with the empty anchor, `TocHeader`) increases `headerCount` by
exactly one when `headerCount` is below the largest `int`, and writes the target
`toc_<headerCount>` into the toc buffer; no call of the renderer lowers `headerCount`,
except that the increment at the largest `int` leaves the smallest `int`, provided the
producers it runs do not lower it and keep it in range; and for every sequence of
registrations from a state whose counter has room for them, the targets `toc_<n>` read off
the toc buffer for the headings without an explicit anchor are pairwise distinct. -/
theorem c7_ids_not_reused_within_int_range (E : Env) :
    (∀ (p : Plain) (text : Bytes) (level : Int),
      minInt64 ≤ p.headerCount → p.headerCount < maxInt64 →
      (TocHeaderWithAnchor64 p text level []).headerCount = p.headerCount + 1 ∧
      (TocHeader64 p text level).headerCount = p.headerCount + 1 ∧
      TocHeaderWithAnchor64 p text level [] = TocHeaderWithAnchor p text level [] ∧
      (TocHeaderWithAnchor p text level []).toc =
        (tocTransition p level).toc ++ ("<li><a href=\"#".toList
          ++ ("toc_".toList ++ Itoa p.headerCount) ++ "\">".toList ++ text
          ++ "</a></li>\n".toList)) ∧
    (∀ (op : Op) (p : Plain) (out : Bytes) (p1 : Plain) (out1 : Bytes),
      InIntRange p → (∀ t ∈ op.producers, KeepsCount t ∧ KeepsRange t) →
      op.run64 E p out = some (p1, out1) →
      p.headerCount ≤ p1.headerCount ∨ p1.headerCount = minInt64) ∧
    (∀ (p : Plain) (rs : List Registration),
      minInt64 ≤ p.headerCount → p.headerCount + (rs.length : Int) ≤ maxInt64 →
      (writtenTargets p rs).Nodup ∧
      ∀ t ∈ writtenTargets p rs, ∃ n : Int, p.headerCount ≤ n ∧
        n < p.headerCount + (rs.length : Int) ∧ t = "toc_".toList ++ Itoa n) ∧
    (∀ (p : Plain) (r : Registration), r.anchor = [] →
      (register64 p r).toc = (tocTransition p r.level).toc ++ writtenItem p r ∧
      writtenItem p r = "<li><a href=\"#".toList ++ itemTarget (writtenItem p r)
        ++ "\">".toList ++ r.text ++ "</a></li>\n".toList) := by
  refine ⟨?_, fun op p out p1 out1 hp hk h => Op_run64_headerCount E op p out p1 out1 hp hk h,
    fun p rs h1 h2 => ⟨writtenTargets_nodup rs p h1 h2,
      fun t ht => writtenTargets_range rs p t h1 h2 ht⟩, ?_⟩
  · intro p text level h1 h2
    have heq := TocHeaderWithAnchor64_eq p text level [] h1 h2
    refine ⟨?_, ?_, heq, ?_⟩
    · rw [heq, TocHeaderWithAnchor_headerCount]
    · show (TocHeaderWithAnchor64 p text level []).headerCount = p.headerCount + 1
      rw [heq, TocHeaderWithAnchor_headerCount]
    · simp [TocHeaderWithAnchor, tocItem, tocTarget, tocTransition_headerCount]
  · intro p r ha
    constructor
    · show (TocHeaderWithAnchor p r.text r.level r.anchor).toc = _
      rw [writtenItem_eq, TocHeaderWithAnchor_toc]
    · rw [itemTarget_writtenItem p r ha]
      rw [writtenItem_eq]
      simp [ha]

/-- The amended C7 for three registrations on a fresh state, the second with an explicit
anchor: the targets read off the buffer are distinct. -/
theorem c7_ids_not_reused_within_int_range_witness :
    (writtenTargets (freshPlain 0)
      [⟨"A".toList, 1, []⟩, ⟨"B".toList, 3, "x".toList⟩, ⟨"C".toList, 2, []⟩]).Nodup :=
  ((c7_ids_not_reused_within_int_range sampleEnv).2.2.1 (freshPlain 0)
    [⟨"A".toList, 1, []⟩, ⟨"B".toList, 3, "x".toList⟩, ⟨"C".toList, 2, []⟩]
    (by decide) (by decide)).1

/-! ## Counting tags across a junction

An occurrence of a tag in `a ++ b` lies in `a` or in `b` unless it straddles the junction.
A list tag begins with `<`, ends with `>` and has neither inside, so no occurrence straddles
a junction after a byte that is not inside a tag or before a byte that is not inside one. -/

theorem prefix_append_iff_of_no_straddle (pat x b : Bytes)
    (hno : ∀ v, v ≠ [] → pat = x ++ v → ¬ v <+: b) : pat <+: x ++ b ↔ pat <+: x := by
  constructor
  · intro h
    by_cases hle : pat.length ≤ x.length
    · exact List.prefix_of_prefix_length_le h (List.prefix_append x b) hle
    · exfalso
      have hx : x <+: pat :=
        List.prefix_of_prefix_length_le (List.prefix_append x b) h (by omega)
      obtain ⟨v, hv⟩ := hx
      have hvne : v ≠ [] := by
        rintro rfl
        simp at hv
        subst hv
        exact hle le_rfl
      refine hno v hvne hv.symm ?_
      rw [← hv] at h
      exact (List.prefix_append_right_inj x).mp h
  · intro h
    exact h.trans (List.prefix_append x b)

theorem countOcc_append_of_no_straddle (pat b : Bytes) : ∀ a : Bytes,
    (∀ x v, x ≠ [] → v ≠ [] → x <:+ a → pat = x ++ v → ¬ v <+: b) →
    countOcc pat (a ++ b) = countOcc pat a + countOcc pat b := by
  intro a
  induction a with
  | nil => intro _; simp [countOcc]
  | cons c a ih =>
    intro hno
    have hiff : pat <+: (c :: a) ++ b ↔ pat <+: c :: a :=
      prefix_append_iff_of_no_straddle pat (c :: a) b
        (fun v hv hpat => hno (c :: a) v (by simp) hv (List.suffix_refl _) hpat)
    have hrec := ih (fun x v hx hv hsuf hpat =>
      hno x v hx hv (hsuf.trans (List.suffix_cons c a)) hpat)
    have hdec : (pat.isPrefixOf (c :: (a ++ b)) = true) ↔ (pat.isPrefixOf (c :: a) = true) := by
      rw [List.isPrefixOf_iff_prefix, List.isPrefixOf_iff_prefix]
      exact hiff
    show (if pat.isPrefixOf (c :: (a ++ b)) = true then 1 else 0) + countOcc pat (a ++ b)
      = ((if pat.isPrefixOf (c :: a) = true then 1 else 0) + countOcc pat a) + countOcc pat b
    rw [hrec]
    by_cases h1 : pat.isPrefixOf (c :: a) = true
    · simp only [h1, hdec.mpr h1, if_true]
      omega
    · have h2 : ¬ pat.isPrefixOf (c :: (a ++ b)) = true := fun h => h1 (hdec.mp h)
      simp only [h1, h2, if_false]
      omega

/-- No occurrence straddles a junction before a byte that is not inside the tag. -/
theorem countOcc_append_of_head (pat a b : Bytes) (c : Char) (b1 : Bytes) (hb : b = c :: b1)
    (hc : c ∉ pat.tail) : countOcc pat (a ++ b) = countOcc pat a + countOcc pat b := by
  apply countOcc_append_of_no_straddle
  intro x v hx hv _ hpat hpre
  apply hc
  obtain ⟨x0, x1, rfl⟩ := List.exists_cons_of_ne_nil hx
  obtain ⟨v0, v1, rfl⟩ := List.exists_cons_of_ne_nil hv
  rw [hb] at hpre
  have hv0 : v0 = c := by
    obtain ⟨t, ht⟩ := hpre
    simp only [List.cons_append, List.cons.injEq] at ht
    exact ht.1
  rw [hpat, ← hv0]
  simp

/-- No occurrence straddles a junction after a byte that is not inside the tag. -/
theorem countOcc_append_of_last (pat a b : Bytes) (a1 : Bytes) (c : Char)
    (ha : a = a1 ++ [c]) (hc : c ∉ pat.dropLast) :
    countOcc pat (a ++ b) = countOcc pat a + countOcc pat b := by
  apply countOcc_append_of_no_straddle
  intro x v hx hv hsuf hpat _
  apply hc
  have hlast : c ∈ x := by
    rw [ha] at hsuf
    obtain ⟨t, ht⟩ := hsuf
    have h1 : (t ++ x).getLast? = (a1 ++ [c]).getLast? := by rw [ht]
    rw [List.getLast?_append_of_ne_nil _ hx] at h1
    simp at h1
    exact List.mem_of_getLast?_eq_some h1
  rw [hpat, List.dropLast_append_of_ne_nil _ hv]
  exact List.mem_append_left _ hlast

theorem countOcc_eq_zero_of_not_mem (pat s : Bytes) (c : Char) (pat1 : Bytes)
    (hpat : pat = c :: pat1) (hc : c ∉ s) : countOcc pat s = 0 := by
  induction s with
  | nil => rfl
  | cons d s ih =>
    have hd : d ≠ c := fun h => hc (by simp [h])
    have hs : c ∉ s := fun h => hc (List.mem_cons_of_mem _ h)
    have hnot : pat.isPrefixOf (d :: s) = false := by
      rw [hpat]
      simp [List.isPrefixOf, Ne.symm hd]
    simp only [countOcc, hnot, ih hs]
    simp

theorem mem_listTags (pat : Bytes) (h : pat ∈ listTags) :
    pat = "<ul>".toList ∨ pat = "</ul>".toList ∨ pat = "<li>".toList ∨ pat = "</li>".toList := by
  simpa [listTags] using h

theorem listTags_head_safe (pat : Bytes) (h : pat ∈ listTags) :
    ∀ c ∈ "<\n\"".toList, c ∉ pat.tail := by
  rcases mem_listTags pat h with rfl | rfl | rfl | rfl <;> decide

theorem listTags_last_safe (pat : Bytes) (h : pat ∈ listTags) :
    ∀ c ∈ "#>".toList, c ∉ pat.dropLast := by
  rcases mem_listTags pat h with rfl | rfl | rfl | rfl <;> decide

theorem tagBalance_nil (op cl : Bytes) : tagBalance op cl [] = 0 := by
  simp [tagBalance, countOcc]

/-- The balance is additive at a junction before `<`, a newline or a double quote. -/
theorem tagBalance_append_of_head (op cl a b : Bytes) (hop : op ∈ listTags)
    (hcl : cl ∈ listTags) (c : Char) (b1 : Bytes) (hb : b = c :: b1)
    (hc : c ∈ "<\n\"".toList) :
    tagBalance op cl (a ++ b) = tagBalance op cl a + tagBalance op cl b := by
  unfold tagBalance
  rw [countOcc_append_of_head op a b c b1 hb (listTags_head_safe op hop c hc),
    countOcc_append_of_head cl a b c b1 hb (listTags_head_safe cl hcl c hc)]
  push_cast
  ring

/-- The balance is additive at a junction after `#` or `>`. -/
theorem tagBalance_append_of_last (op cl a b : Bytes) (hop : op ∈ listTags)
    (hcl : cl ∈ listTags) (a1 : Bytes) (c : Char) (ha : a = a1 ++ [c])
    (hc : c ∈ "#>".toList) :
    tagBalance op cl (a ++ b) = tagBalance op cl a + tagBalance op cl b := by
  unfold tagBalance
  rw [countOcc_append_of_last op a b a1 c ha (listTags_last_safe op hop c hc),
    countOcc_append_of_last cl a b a1 c ha (listTags_last_safe cl hcl c hc)]
  push_cast
  ring

theorem tagBalance_of_noListTags (op cl s : Bytes) (hop : op ∈ listTags)
    (hcl : cl ∈ listTags) (h : noListTags s) : tagBalance op cl s = 0 := by
  simp [tagBalance, h op hop, h cl hcl]

/-- A generated target `toc_<n>` contains no list tag. -/
theorem noListTags_generated (n : Int) : noListTags ("toc_".toList ++ Itoa n) := by
  intro pat hpat
  have hno : '<' ∉ "toc_".toList ++ Itoa n := by
    have hd : ∀ fuel m, '<' ∉ decimalDigits fuel m := by
      intro fuel m hmem
      obtain ⟨d, hd, heq⟩ := mem_decimalDigits fuel m _ hmem
      exact digitChar_ne '<' (Or.inr (by decide)) d hd heq
    intro hmem
    rcases List.mem_append.mp hmem with h | h
    · exact absurd h (by decide)
    · unfold Itoa at h
      split at h
      · rcases List.mem_append.mp h with h | h
        · exact absurd h (by decide)
        · exact hd _ _ h
      · exact hd _ _ h
  rcases mem_listTags pat hpat with rfl | rfl | rfl | rfl <;>
    exact countOcc_eq_zero_of_not_mem _ _ '<' _ rfl hno

/-- The item of a heading is balanced in itself, apart from what its fixed parts hold. -/
theorem tagBalance_tocItem (op cl : Bytes) (hop : op ∈ listTags) (hcl : cl ∈ listTags)
    (p : Plain) (text anchor : Bytes) (ht : noListTags text) (ha : noListTags anchor) :
    tagBalance op cl (tocItem p text anchor) =
      tagBalance op cl "<li><a href=\"#".toList + tagBalance op cl "\">".toList
        + tagBalance op cl "</a></li>\n".toList := by
  have htarget : tagBalance op cl (tocTarget p anchor) = 0 := by
    unfold tocTarget
    split
    · exact tagBalance_of_noListTags op cl _ hop hcl ha
    · exact tagBalance_of_noListTags op cl _ hop hcl (noListTags_generated _)
  have h1 : tocItem p text anchor = "<li><a href=\"#".toList
      ++ (tocTarget p anchor ++ ("\">".toList ++ (text ++ "</a></li>\n".toList))) := by
    simp [tocItem]
  rw [h1,
    tagBalance_append_of_last op cl "<li><a href=\"#".toList _ hop hcl
      "<li><a href=\"".toList '#' rfl (by decide),
    tagBalance_append_of_head op cl (tocTarget p anchor)
      ("\">".toList ++ (text ++ "</a></li>\n".toList)) hop hcl '"'
      (">".toList ++ (text ++ "</a></li>\n".toList)) rfl (by decide),
    tagBalance_append_of_last op cl "\">".toList _ hop hcl "\"".toList '>' rfl (by decide),
    tagBalance_append_of_head op cl text "</a></li>\n".toList hop hcl '<'
      "/a></li>\n".toList rfl (by decide),
    htarget, tagBalance_of_noListTags op cl text hop hcl ht]
  ring

theorem ul_mem_listTags : "<ul>".toList ∈ listTags ∧ "</ul>".toList ∈ listTags := by
  simp [listTags]

theorem li_mem_listTags : "<li>".toList ∈ listTags ∧ "</li>".toList ∈ listTags := by
  simp [listTags]

/-! ## The invariant of the table of contents -/

theorem tocOpenStep_toc_of_suffix_any (p : Plain) (s : Bytes)
    (h : p.toc = s ++ "</li>\n".toList) :
    (tocOpenStep p).toc =
      (if s.length > 0 then s ++ "\n".toList else s) ++ "<ul>\n".toList := by
  simp only [tocOpenStep, h, HasSuffix_append, if_true, take_length_sub_append]

/-- One turn of the opening loop with a list already open raises both balances by one:
it opens a list, and it opens an item or opens the last closed item again. -/
theorem tocOpenStep_balance (op cl : Bytes)
    (hpair : (op = "<ul>".toList ∧ cl = "</ul>".toList) ∨
      (op = "<li>".toList ∧ cl = "</li>".toList))
    (p : Plain) (hlevel : 1 ≤ p.currentLevel) :
    tagBalance op cl (tocOpenStep p).toc = tagBalance op cl p.toc + 1 := by
  have hmem : op ∈ listTags ∧ cl ∈ listTags := by
    rcases hpair with ⟨rfl, rfl⟩ | ⟨rfl, rfl⟩
    · exact ul_mem_listTags
    · exact li_mem_listTags
  obtain ⟨hop, hcl⟩ := hmem
  by_cases hs : HasSuffix p.toc "</li>\n".toList = true
  · obtain ⟨s, hs1⟩ : ∃ s, p.toc = s ++ "</li>\n".toList := by
      obtain ⟨t, ht⟩ := List.isSuffixOf_iff_suffix.mp hs
      exact ⟨t, ht.symm⟩
    rw [tocOpenStep_toc_of_suffix_any p s hs1, hs1,
      tagBalance_append_of_head op cl s "</li>\n".toList hop hcl '<' "/li>\n".toList rfl
        (by decide)]
    by_cases hlen : s.length > 0
    · simp only [hlen, if_true]
      rw [List.append_assoc,
        tagBalance_append_of_head op cl s ("\n".toList ++ "<ul>\n".toList) hop hcl
          (Char.ofNat 10) "<ul>\n".toList rfl (by decide)]
      have e : tagBalance op cl ("\n".toList ++ "<ul>\n".toList)
          = tagBalance op cl "</li>\n".toList + 1 := by
        rcases hpair with ⟨rfl, rfl⟩ | ⟨rfl, rfl⟩ <;> decide
      omega
    · have hnil : s = [] := List.length_eq_zero.mp (by omega)
      subst hnil
      simp only [List.length_nil, gt_iff_lt, lt_self_iff_false, if_false, List.nil_append,
        tagBalance_nil, zero_add]
      rcases hpair with ⟨rfl, rfl⟩ | ⟨rfl, rfl⟩ <;> decide
  · rw [tocOpenStep_toc_of_not_suffix p (by simpa using hs) (by omega), List.append_assoc,
      List.append_assoc,
      tagBalance_append_of_head op cl p.toc
        ("<li>".toList ++ ("\n".toList ++ "<ul>\n".toList)) hop hcl '<'
        ("li>".toList ++ ("\n".toList ++ "<ul>\n".toList)) rfl (by decide)]
    have e : tagBalance op cl ("<li>".toList ++ ("\n".toList ++ "<ul>\n".toList)) = 1 := by
      rcases hpair with ⟨rfl, rfl⟩ | ⟨rfl, rfl⟩ <;> decide
    omega

theorem TocInv_tocOpenStep (p : Plain) (h : TocInv p) : TocInv (tocOpenStep p) := by
  rcases h with ⟨hcl, htoc⟩ | ⟨hcl, hul, hli⟩
  · right
    have ht := tocOpenStep_toc_of_empty p htoc (le_of_eq hcl)
    refine ⟨?_, ?_, ?_⟩
    · show 1 ≤ p.currentLevel + 1
      omega
    · rw [ht]
      show _ = p.currentLevel + 1
      rw [hcl]
      decide
    · rw [ht]
      show _ = p.currentLevel + 1 - 1
      rw [hcl]
      decide
  · right
    refine ⟨?_, ?_, ?_⟩
    · show 1 ≤ p.currentLevel + 1
      omega
    · rw [tocOpenStep_balance _ _ (Or.inl ⟨rfl, rfl⟩) p hcl, hul]
      rfl
    · rw [tocOpenStep_balance _ _ (Or.inr ⟨rfl, rfl⟩) p hcl, hli]
      show p.currentLevel - 1 + 1 = p.currentLevel + 1 - 1
      omega

theorem TocInv_iterate_tocOpenStep (n : Nat) : ∀ p : Plain, TocInv p →
    TocInv (tocOpenStep^[n] p) := by
  induction n with
  | zero => intro p h; exact h
  | succ n ih =>
    intro p h
    rw [Function.iterate_succ_apply]
    exact ih _ (TocInv_tocOpenStep p h)

/-- One turn of the closing loop above level 1 closes a list and its item. -/
theorem TocInv_tocCloseStep (p : Plain) (h : TocInv p) (h2 : 2 ≤ p.currentLevel) :
    TocInv (tocCloseStep p) := by
  rcases h with ⟨hcl, -⟩ | ⟨-, hul, hli⟩
  · omega
  · have hgt : p.currentLevel > 1 := by omega
    have htoc : (tocCloseStep p).toc = p.toc ++ ("</ul>".toList ++ "</li>\n".toList) := by
      simp only [tocCloseStep, hgt, if_true, List.append_assoc]
    right
    refine ⟨?_, ?_, ?_⟩
    · show 1 ≤ p.currentLevel - 1
      omega
    · rw [htoc, tagBalance_append_of_head _ _ p.toc ("</ul>".toList ++ "</li>\n".toList)
        ul_mem_listTags.1 ul_mem_listTags.2 '<' ("/ul>".toList ++ "</li>\n".toList) rfl
        (by decide), hul]
      show p.currentLevel + _ = p.currentLevel - 1
      have e : tagBalance "<ul>".toList "</ul>".toList
          ("</ul>".toList ++ "</li>\n".toList) = -1 := by decide
      omega
    · rw [htoc, tagBalance_append_of_head _ _ p.toc ("</ul>".toList ++ "</li>\n".toList)
        li_mem_listTags.1 li_mem_listTags.2 '<' ("/ul>".toList ++ "</li>\n".toList) rfl
        (by decide), hli]
      show p.currentLevel - 1 + _ = p.currentLevel - 1 - 1
      have e : tagBalance "<li>".toList "</li>".toList
          ("</ul>".toList ++ "</li>\n".toList) = -1 := by decide
      omega

theorem TocInv_iterate_tocCloseStep (n : Nat) : ∀ p : Plain, TocInv p →
    1 + (n : Int) ≤ p.currentLevel → TocInv (tocCloseStep^[n] p) := by
  induction n with
  | zero => intro p h _; exact h
  | succ n ih =>
    intro p h hn
    rw [Function.iterate_succ_apply]
    refine ih _ (TocInv_tocCloseStep p h (by push_cast at hn; omega)) ?_
    show 1 + (n : Int) ≤ p.currentLevel - 1
    push_cast at hn
    omega

/-- The level transition to a level from 1 keeps the invariant. -/
theorem TocInv_tocTransition (p : Plain) (level : Int) (h : TocInv p) (hl : 1 ≤ level) :
    TocInv (tocTransition p level) := by
  rcases le_total p.currentLevel level with hle | hle
  · rw [tocTransition_up p level (level - p.currentLevel).toNat (by omega)]
    exact TocInv_iterate_tocOpenStep _ p h
  · rw [tocTransition_down p level (p.currentLevel - level).toNat (by omega)]
    exact TocInv_iterate_tocCloseStep _ p h (by omega)

/-- A registration at a level from 1, with a text and an anchor that contain no list tag,
keeps the invariant. -/
theorem TocInv_TocHeaderWithAnchor (p : Plain) (text : Bytes) (level : Int) (anchor : Bytes)
    (h : TocInv p) (hl : 1 ≤ level) (ht : noListTags text) (ha : noListTags anchor) :
    TocInv (TocHeaderWithAnchor p text level anchor) := by
  have hinv := TocInv_tocTransition p level h hl
  have hcl := tocTransition_currentLevel p level
  rcases hinv with ⟨h0, -⟩ | ⟨h1, hul, hli⟩
  · omega
  · right
    have hitem : ∀ op cl : Bytes, op ∈ listTags → cl ∈ listTags →
        tagBalance op cl ((tocTransition p level).toc
          ++ tocItem (tocTransition p level) text anchor)
        = tagBalance op cl (tocTransition p level).toc
          + (tagBalance op cl "<li><a href=\"#".toList + tagBalance op cl "\">".toList
            + tagBalance op cl "</a></li>\n".toList) := by
      intro op cl hop hcl1
      rw [tagBalance_append_of_head op cl _ (tocItem (tocTransition p level) text anchor)
        hop hcl1 '<' ("li><a href=\"#".toList ++ tocTarget (tocTransition p level) anchor
          ++ "\">".toList ++ text ++ "</a></li>\n".toList) (by simp [tocItem]) (by decide),
        tagBalance_tocItem op cl hop hcl1 _ text anchor ht ha]
    refine ⟨h1, ?_, ?_⟩
    · show tagBalance _ _ ((tocTransition p level).toc
        ++ tocItem (tocTransition p level) text anchor) = (tocTransition p level).currentLevel
      rw [hitem _ _ ul_mem_listTags.1 ul_mem_listTags.2, hul]
      have e : tagBalance "<ul>".toList "</ul>".toList "<li><a href=\"#".toList
          + tagBalance "<ul>".toList "</ul>".toList "\">".toList
          + tagBalance "<ul>".toList "</ul>".toList "</a></li>\n".toList = 0 := by decide
      omega
    · show tagBalance _ _ ((tocTransition p level).toc
        ++ tocItem (tocTransition p level) text anchor)
        = (tocTransition p level).currentLevel - 1
      rw [hitem _ _ li_mem_listTags.1 li_mem_listTags.2, hli]
      have e : tagBalance "<li>".toList "</li>".toList "<li><a href=\"#".toList
          + tagBalance "<li>".toList "</li>".toList "\">".toList
          + tagBalance "<li>".toList "</li>".toList "</a></li>\n".toList = 0 := by decide
      omega

theorem TocInv_registerAll (rs : List Registration) : ∀ p : Plain, TocInv p →
    (∀ r ∈ rs, 1 ≤ r.level) → (∀ r ∈ rs, noListTags r.text ∧ noListTags r.anchor) →
    TocInv (registerAll p rs) := by
  induction rs with
  | nil => intro p h _ _; exact h
  | cons r rs ih =>
    intro p h hl ht
    show TocInv (registerAll (register p r) rs)
    refine ih _ ?_ (fun x hx => hl x (List.mem_cons_of_mem _ hx))
      (fun x hx => ht x (List.mem_cons_of_mem _ hx))
    exact TocInv_TocHeaderWithAnchor p r.text r.level r.anchor h
      (hl r (List.mem_cons_self _ _)) (ht r (List.mem_cons_self _ _)).1
      (ht r (List.mem_cons_self _ _)).2

theorem iterate_tocFinalizeStep_balance (op cl : Bytes)
    (hpair : (op = "<ul>".toList ∧ cl = "</ul>".toList) ∨
      (op = "<li>".toList ∧ cl = "</li>".toList))
    (n : Nat) : ∀ p : Plain,
    tagBalance op cl (tocFinalizeStep^[n] p).toc = tagBalance op cl p.toc - n := by
  have hmem : op ∈ listTags ∧ cl ∈ listTags := by
    rcases hpair with ⟨rfl, rfl⟩ | ⟨rfl, rfl⟩
    · exact ul_mem_listTags
    · exact li_mem_listTags
  have e : tagBalance op cl "</ul></li>\n".toList = -1 := by
    rcases hpair with ⟨rfl, rfl⟩ | ⟨rfl, rfl⟩ <;> decide
  induction n with
  | zero => intro p; simp
  | succ n ih =>
    intro p
    rw [Function.iterate_succ_apply, ih]
    have hstep : (tocFinalizeStep p).toc = p.toc ++ "</ul></li>\n".toList := rfl
    rw [hstep, tagBalance_append_of_head op cl p.toc "</ul></li>\n".toList hmem.1 hmem.2 '<'
      "/ul></li>\n".toList rfl (by decide), e]
    push_cast
    omega

/-- After `TocFinalize`, a state that satisfies the invariant holds a balanced buffer. -/
theorem TocFinalize_balanced (p : Plain) (h : TocInv p) :
    tagBalance "<ul>".toList "</ul>".toList (TocFinalize p).toc = 0 ∧
    tagBalance "<li>".toList "</li>".toList (TocFinalize p).toc = 0 := by
  rcases h with ⟨hcl, htoc⟩ | ⟨hcl, hul, hli⟩
  · have hfin : TocFinalize p = p := by
      have hloop : tocFinalizeLoop (p.currentLevel - 1).toNat p = p :=
        tocFinalizeLoop_of_le _ p (by omega)
      have hnot : ¬ (p.currentLevel > 0) := by omega
      simp only [TocFinalize, hloop, hnot, if_false]
    rw [hfin, htoc]
    exact ⟨tagBalance_nil _ _, tagBalance_nil _ _⟩
  · have hn : 1 + (((p.currentLevel - 1).toNat : Nat) : Int) = p.currentLevel := by omega
    rw [TocFinalize_of_open p (p.currentLevel - 1).toNat hn]
    constructor
    · rw [tagBalance_append_of_head _ _ _ "</ul>\n".toList ul_mem_listTags.1
        ul_mem_listTags.2 '<' "/ul>\n".toList rfl (by decide),
        iterate_tocFinalizeStep_balance _ _ (Or.inl ⟨rfl, rfl⟩), hul]
      have e : tagBalance "<ul>".toList "</ul>".toList "</ul>\n".toList = -1 := by decide
      omega
    · rw [tagBalance_append_of_head _ _ _ "</ul>\n".toList li_mem_listTags.1
        li_mem_listTags.2 '<' "/ul>\n".toList rfl (by decide),
        iterate_tocFinalizeStep_balance _ _ (Or.inr ⟨rfl, rfl⟩), hli]
      have e : tagBalance "<li>".toList "</li>".toList "</ul>\n".toList = 0 := by decide
      omega

/-! ## C1: the finalized table of contents is balanced -/

/-- C1. Starting from a fresh renderer (`currentLevel` 0, `headerCount` 0, empty toc buffer),
after any finite sequence of `TocHeaderWithAnchor` calls whose levels are at least 1 and
whose texts and anchors contain no list tag, followed by `TocFinalize`, the toc buffer holds
as many `<ul>` as `</ul>` and as many `<li>` as `</li>`. -/
theorem c1_finalized_toc_is_balanced (p : Plain) (rs : List Registration)
    (hfresh : p.currentLevel = 0 ∧ p.headerCount = 0 ∧ p.toc = [])
    (hlevel : ∀ r ∈ rs, 1 ≤ r.level)
    (htags : ∀ r ∈ rs, noListTags r.text ∧ noListTags r.anchor) :
    countOcc "<ul>".toList (TocFinalize (registerAll p rs)).toc
      = countOcc "</ul>".toList (TocFinalize (registerAll p rs)).toc ∧
    countOcc "<li>".toList (TocFinalize (registerAll p rs)).toc
      = countOcc "</li>".toList (TocFinalize (registerAll p rs)).toc := by
  have hinv : TocInv (registerAll p rs) :=
    TocInv_registerAll rs p (Or.inl ⟨hfresh.1, hfresh.2.2⟩) hlevel htags
  obtain ⟨hul, hli⟩ := TocFinalize_balanced _ hinv
  unfold tagBalance at hul hli
  constructor <;> omega

/-- C1 for the levels 1, 3, 2, the second heading with the explicit anchor `x`. -/
theorem c1_finalized_toc_is_balanced_witness :
    countOcc "<ul>".toList (TocFinalize (registerAll (freshPlain 0)
        [⟨"A".toList, 1, []⟩, ⟨"B".toList, 3, "x".toList⟩, ⟨"C".toList, 2, []⟩])).toc
      = countOcc "</ul>".toList (TocFinalize (registerAll (freshPlain 0)
        [⟨"A".toList, 1, []⟩, ⟨"B".toList, 3, "x".toList⟩, ⟨"C".toList, 2, []⟩])).toc ∧
    countOcc "<li>".toList (TocFinalize (registerAll (freshPlain 0)
        [⟨"A".toList, 1, []⟩, ⟨"B".toList, 3, "x".toList⟩, ⟨"C".toList, 2, []⟩])).toc
      = countOcc "</li>".toList (TocFinalize (registerAll (freshPlain 0)
        [⟨"A".toList, 1, []⟩, ⟨"B".toList, 3, "x".toList⟩, ⟨"C".toList, 2, []⟩])).toc :=
  c1_finalized_toc_is_balanced (freshPlain 0)
    [⟨"A".toList, 1, []⟩, ⟨"B".toList, 3, "x".toList⟩, ⟨"C".toList, 2, []⟩]
    ⟨rfl, rfl, rfl⟩ (by decide) (by decide)

/-! ## Links: what `Link` and `AutoLink` write -/

theorem maybeWriteAbsolutePrefix_of_relative (L : LinkEnv) (p : Plain) (out link : Bytes)
    (hp : p.parameters.AbsolutePrefix ≠ []) (hrel : L.isRelativeLink link = true)
    (hne : link ≠ []) :
    maybeWriteAbsolutePrefix L p out link =
      some (out ++ p.parameters.AbsolutePrefix
        ++ (if link.head? = some '/' then [] else "/".toList)) := by
  obtain ⟨c, rest, rfl⟩ := List.exists_cons_of_ne_nil hne
  by_cases hc : c = '/'
  · subst hc
    simp [maybeWriteAbsolutePrefix, hp, hrel]
  · simp [maybeWriteAbsolutePrefix, hp, hrel, hc]

theorem maybeWriteAbsolutePrefix_of_not (L : LinkEnv) (p : Plain) (out link : Bytes)
    (h : p.parameters.AbsolutePrefix = [] ∨ L.isRelativeLink link = false) :
    maybeWriteAbsolutePrefix L p out link = some out := by
  rcases h with h | h <;> simp [maybeWriteAbsolutePrefix, h]

/-- A link that is not suppressed and not filtered is written as a hyperlink. -/
theorem Link_of_hyperlink (E : Env) (L : LinkEnv) (p : Plain) (out link title content : Bytes)
    (hskip : hasFlag p.flags L.HTML_SKIP_LINKS = false)
    (hsafe : (hasFlag p.flags L.HTML_SAFELINK && !L.isSafeLink link) = false) :
    Link E L p out link title content =
      (maybeWriteAbsolutePrefix L p (out ++ "<a href=\"".toList) link).map (fun o =>
        o ++ E.attrEscape link
          ++ (if title.length > 0 then "\" title=\"".toList ++ E.attrEscape title else [])
          ++ (if hasFlag p.flags L.HTML_NOFOLLOW_LINKS && !L.isRelativeLink link then
                "\" rel=\"nofollow".toList else [])
          ++ (if hasFlag p.flags L.HTML_HREF_TARGET_BLANK && !L.isRelativeLink link then
                "\" target=\"_blank".toList else [])
          ++ "\">".toList ++ content ++ "</a>".toList) := by
  simp only [Link, hskip, hsafe, Bool.false_eq_true, if_false]
  congr 1
  funext o
  by_cases h1 : title.length > 0 <;>
    cases hasFlag p.flags L.HTML_NOFOLLOW_LINKS && !L.isRelativeLink link <;>
    cases hasFlag p.flags L.HTML_HREF_TARGET_BLANK && !L.isRelativeLink link <;>
    simp [h1]

/-- An automatic link that is not filtered is written as a hyperlink. -/
theorem AutoLink_of_hyperlink (E : Env) (L : LinkEnv) (p : Plain) (out link : Bytes)
    (kind : Int)
    (hsafe : (hasFlag p.flags L.HTML_SAFELINK && !L.isSafeLink link
      && kind != L.LINK_TYPE_EMAIL) = false) :
    AutoLink E L p out link kind =
      (if kind = L.LINK_TYPE_EMAIL then some (out ++ "<a href=\"".toList ++ "mailto:".toList)
        else maybeWriteAbsolutePrefix L p (out ++ "<a href=\"".toList) link).map (fun o =>
        o ++ L.entityEscapeWithSkip link (L.htmlEntityFindAllIndex link)
          ++ (if hasFlag p.flags L.HTML_NOFOLLOW_LINKS && !L.isRelativeLink link then
                "\" rel=\"nofollow".toList else [])
          ++ (if hasFlag p.flags L.HTML_HREF_TARGET_BLANK && !L.isRelativeLink link then
                "\" target=\"_blank".toList else [])
          ++ "\">".toList
          ++ (if HasPrefix link "mailto://".toList then
                E.attrEscape (link.drop "mailto://".toList.length)
              else if HasPrefix link "mailto:".toList then
                E.attrEscape (link.drop "mailto:".toList.length)
              else L.entityEscapeWithSkip link (L.htmlEntityFindAllIndex link))
          ++ "</a>".toList) := by
  simp only [AutoLink, hsafe, Bool.false_eq_true, if_false]
  congr 1
  funext o
  cases hasFlag p.flags L.HTML_NOFOLLOW_LINKS && !L.isRelativeLink link <;>
    cases hasFlag p.flags L.HTML_HREF_TARGET_BLANK && !L.isRelativeLink link <;>
    cases HasPrefix link "mailto://".toList <;>
    cases HasPrefix link "mailto:".toList <;>
    simp

/-! ## C11: the absolute prefix -/

/-- C11. With a non-empty `AbsolutePrefix` and a non-empty link that `isRelativeLink`
accepts, `maybeWriteAbsolutePrefix` appends the prefix, followed by a slash exactly when the
link does not start with one; it appends nothing when the prefix is empty or the link is not
relative. Hence `Link` with the prefix `http://x.com` writes the href `http://x.com/a/b` for
the link `/a/b` and for the link `a/b`, when `isRelativeLink` accepts both, `attrEscape`
leaves both as they are and the link is neither suppressed nor filtered. -/
theorem c11_absolute_prefix_rewriting (E : Env) (L : LinkEnv) (p : Plain) (out : Bytes) :
    (∀ link, p.parameters.AbsolutePrefix ≠ [] → L.isRelativeLink link = true → link ≠ [] →
      maybeWriteAbsolutePrefix L p out link =
        some (out ++ p.parameters.AbsolutePrefix
          ++ (if link.head? = some '/' then [] else "/".toList))) ∧
    (∀ link, p.parameters.AbsolutePrefix = [] ∨ L.isRelativeLink link = false →
      maybeWriteAbsolutePrefix L p out link = some out) ∧
    (∀ link title content, link = "/a/b".toList ∨ link = "a/b".toList →
      p.parameters.AbsolutePrefix = "http://x.com".toList →
      L.isRelativeLink link = true → E.attrEscape link = link →
      hasFlag p.flags L.HTML_SKIP_LINKS = false →
      (hasFlag p.flags L.HTML_SAFELINK && !L.isSafeLink link) = false →
      Link E L p out link title content =
        some (out ++ "<a href=\"".toList ++ "http://x.com/a/b".toList
          ++ (if title.length > 0 then "\" title=\"".toList ++ E.attrEscape title else [])
          ++ "\">".toList ++ content ++ "</a>".toList)) := by
  refine ⟨fun link hp hrel hne => maybeWriteAbsolutePrefix_of_relative L p out link hp hrel hne,
    fun link h => maybeWriteAbsolutePrefix_of_not L p out link h, ?_⟩
  intro link title content hlink hp hrel hesc hskip hsafe
  have hpne : p.parameters.AbsolutePrefix ≠ [] := by rw [hp]; decide
  have hne : link ≠ [] := by rcases hlink with rfl | rfl <;> decide
  rw [Link_of_hyperlink E L p out link title content hskip hsafe,
    maybeWriteAbsolutePrefix_of_relative L p _ link hpne hrel hne, hesc, hp]
  simp only [hrel, Bool.not_true, Bool.and_false, Bool.false_eq_true, if_false,
    Option.map_some']
  rcases hlink with rfl | rfl <;> simp

/-- C11 for the link `a/b`, which the sample `isRelativeLink` accepts. -/
theorem c11_absolute_prefix_rewriting_witness :
    Link sampleEnv sampleLinkEnv (plainWithPrefix 0 "http://x.com".toList) [] "a/b".toList []
        "c".toList =
      some ([] ++ "<a href=\"".toList ++ "http://x.com/a/b".toList
        ++ (if ([] : Bytes).length > 0 then "\" title=\"".toList ++ sampleEnv.attrEscape []
            else [])
        ++ "\">".toList ++ "c".toList ++ "</a>".toList) :=
  (c11_absolute_prefix_rewriting sampleEnv sampleLinkEnv
    (plainWithPrefix 0 "http://x.com".toList) []).2.2 "a/b".toList [] "c".toList
    (Or.inr rfl) rfl (by decide) rfl (by decide) (by decide)

/-! ## C12: link suppression -/

/-- With the skip-links flag set, `Link` writes the content as inert text, whatever the
link and the other flags. -/
theorem Link_of_skip_links (E : Env) (L : LinkEnv) (p : Plain) (out link title content : Bytes)
    (hskip : hasFlag p.flags L.HTML_SKIP_LINKS = true) :
    Link E L p out link title content =
      some (out ++ "<tt>".toList ++ E.attrEscape content ++ "</tt>".toList) := by
  simp only [Link, hskip, if_true]

/-- C12 fails for `AutoLink`: with only the skip-links flag set, the automatic link
`http://a.b` is written as a hyperlink, while `Link` writes inert text for the same link. -/
theorem c12_autolink_ignores_skip_links :
    hasFlag (freshPlain 8).flags sampleLinkEnv.HTML_SKIP_LINKS = true ∧
    AutoLink sampleEnv sampleLinkEnv (freshPlain 8) [] "http://a.b".toList 1 =
      some "<a href=\"http://a.b\">http://a.b</a>".toList ∧
    Link sampleEnv sampleLinkEnv (freshPlain 8) [] "http://a.b".toList [] "a".toList =
      some "<tt>a</tt>".toList := by
  decide

/-! ## C13: unsafe links -/

/-- C13. With safe-links-only set and a link that `isSafeLink` rejects, `AutoLink` with a
kind other than email appends exactly `<tt>`, the escaped link and `</tt>`, and `Link`
appends exactly `<tt>`, the escaped content and `</tt>`: no anchor, no attribute and no
absolute prefix is written. -/
theorem c13_unsafe_links_are_inert (E : Env) (L : LinkEnv) (p : Plain)
    (out link title content : Bytes) (kind : Int)
    (hflag : hasFlag p.flags L.HTML_SAFELINK = true) (hreject : L.isSafeLink link = false)
    (hkind : kind ≠ L.LINK_TYPE_EMAIL) :
    AutoLink E L p out link kind =
      some (out ++ "<tt>".toList
        ++ L.entityEscapeWithSkip link (L.htmlEntityFindAllIndex link) ++ "</tt>".toList) ∧
    Link E L p out link title content =
      some (out ++ "<tt>".toList ++ E.attrEscape content ++ "</tt>".toList) := by
  constructor
  · simp [AutoLink, hflag, hreject, hkind]
  · by_cases hskip : hasFlag p.flags L.HTML_SKIP_LINKS = true
    · exact Link_of_skip_links E L p out link title content hskip
    · simp [Link, hskip, hflag, hreject]

/-- C13 for the link `javascript:evil()`. -/
theorem c13_unsafe_links_are_inert_witness :
    AutoLink sampleEnv sampleLinkEnv (plainWithPrefix 112 "http://x.com".toList) []
        "javascript:evil()".toList 1 =
      some ([] ++ "<tt>".toList
        ++ sampleLinkEnv.entityEscapeWithSkip "javascript:evil()".toList
            (sampleLinkEnv.htmlEntityFindAllIndex "javascript:evil()".toList)
        ++ "</tt>".toList) ∧
    Link sampleEnv sampleLinkEnv (plainWithPrefix 112 "http://x.com".toList) []
        "javascript:evil()".toList "t".toList "click".toList =
      some ([] ++ "<tt>".toList ++ sampleEnv.attrEscape "click".toList ++ "</tt>".toList) :=
  c13_unsafe_links_are_inert sampleEnv sampleLinkEnv (plainWithPrefix 112 "http://x.com".toList)
    [] "javascript:evil()".toList "t".toList "click".toList 1 (by decide) (by decide)
    (by decide)

/-! ## C14: the attributes of external links -/

/-- C14. When `Link` or `AutoLink` writes a hyperlink, it writes after the href (and, for
`Link`, the title) the attribute `rel="nofollow"` exactly when the no-follow flag is set
and `isRelativeLink` rejects the link, then the attribute `target="_blank"` exactly when the
target-blank flag is set and `isRelativeLink` rejects the link; for a relative link it
writes neither, whatever the flags. -/
theorem c14_external_link_attributes (E : Env) (L : LinkEnv) (p : Plain)
    (out link title content : Bytes) (kind : Int) :
    (hasFlag p.flags L.HTML_SKIP_LINKS = false →
      (hasFlag p.flags L.HTML_SAFELINK && !L.isSafeLink link) = false →
      Link E L p out link title content =
        (maybeWriteAbsolutePrefix L p (out ++ "<a href=\"".toList) link).map (fun o =>
          o ++ E.attrEscape link
            ++ (if title.length > 0 then "\" title=\"".toList ++ E.attrEscape title else [])
            ++ (if hasFlag p.flags L.HTML_NOFOLLOW_LINKS && !L.isRelativeLink link then
                  "\" rel=\"nofollow".toList else [])
            ++ (if hasFlag p.flags L.HTML_HREF_TARGET_BLANK && !L.isRelativeLink link then
                  "\" target=\"_blank".toList else [])
            ++ "\">".toList ++ content ++ "</a>".toList)) ∧
    ((hasFlag p.flags L.HTML_SAFELINK && !L.isSafeLink link
        && kind != L.LINK_TYPE_EMAIL) = false →
      AutoLink E L p out link kind =
        (if kind = L.LINK_TYPE_EMAIL then
            some (out ++ "<a href=\"".toList ++ "mailto:".toList)
          else maybeWriteAbsolutePrefix L p (out ++ "<a href=\"".toList) link).map (fun o =>
          o ++ L.entityEscapeWithSkip link (L.htmlEntityFindAllIndex link)
            ++ (if hasFlag p.flags L.HTML_NOFOLLOW_LINKS && !L.isRelativeLink link then
                  "\" rel=\"nofollow".toList else [])
            ++ (if hasFlag p.flags L.HTML_HREF_TARGET_BLANK && !L.isRelativeLink link then
                  "\" target=\"_blank".toList else [])
            ++ "\">".toList
            ++ (if HasPrefix link "mailto://".toList then
                  E.attrEscape (link.drop "mailto://".toList.length)
                else if HasPrefix link "mailto:".toList then
                  E.attrEscape (link.drop "mailto:".toList.length)
                else L.entityEscapeWithSkip link (L.htmlEntityFindAllIndex link))
            ++ "</a>".toList)) ∧
    (L.isRelativeLink link = true →
      (if hasFlag p.flags L.HTML_NOFOLLOW_LINKS && !L.isRelativeLink link then
          "\" rel=\"nofollow".toList else [])
        ++ (if hasFlag p.flags L.HTML_HREF_TARGET_BLANK && !L.isRelativeLink link then
          "\" target=\"_blank".toList else []) = []) := by
  refine ⟨Link_of_hyperlink E L p out link title content,
    AutoLink_of_hyperlink E L p out link kind, fun hrel => ?_⟩
  simp [hrel]

/-- C14 for an external link with both flags set: both attributes, `nofollow` first. -/
theorem c14_external_link_attributes_witness :
    Link sampleEnv sampleLinkEnv (freshPlain 96) [] "http://e.f".toList [] "c".toList =
      some "<a href=\"http://e.f\" rel=\"nofollow\" target=\"_blank\">c</a>".toList :=
  ((c14_external_link_attributes sampleEnv sampleLinkEnv (freshPlain 96) []
    "http://e.f".toList [] "c".toList 1).1 (by decide) (by decide)).trans (by decide)

/-! ## C15: email links -/

/-- C15, as stated, fails: for the email kind and the target `mailto:a@b.c`, which already
carries the scheme, `AutoLink` still prepends `mailto:` to the href. -/
theorem c15_email_scheme_is_doubled :
    AutoLink sampleEnv sampleLinkEnv (freshPlain 0) [] "mailto:a@b.c".toList
        sampleLinkEnv.LINK_TYPE_EMAIL =
      some "<a href=\"mailto:mailto:a@b.c\">a@b.c</a>".toList ∧
    AutoLink sampleEnv sampleLinkEnv (freshPlain 0) [] "mailto:a@b.c".toList
        sampleLinkEnv.LINK_TYPE_EMAIL ≠
      some "<a href=\"mailto:a@b.c\">a@b.c</a>".toList := by
  decide

/-- C15, amended. For `AutoLink` with the email kind the href is always `mailto:` followed
by the escaped target, also when the target already starts with `mailto://` or `mailto:`;
the visible text is the attribute-escaped target without that scheme when the target starts
with it, and the escaped target otherwise. -/
theorem c15_email_href_always_prefixed (E : Env) (L : LinkEnv) (p : Plain) (out link : Bytes)
    (kind : Int) (hkind : kind = L.LINK_TYPE_EMAIL) :
    AutoLink E L p out link kind =
      some (out ++ "<a href=\"".toList ++ "mailto:".toList
        ++ L.entityEscapeWithSkip link (L.htmlEntityFindAllIndex link)
        ++ (if hasFlag p.flags L.HTML_NOFOLLOW_LINKS && !L.isRelativeLink link then
              "\" rel=\"nofollow".toList else [])
        ++ (if hasFlag p.flags L.HTML_HREF_TARGET_BLANK && !L.isRelativeLink link then
              "\" target=\"_blank".toList else [])
        ++ "\">".toList
        ++ (if HasPrefix link "mailto://".toList then
              E.attrEscape (link.drop "mailto://".toList.length)
            else if HasPrefix link "mailto:".toList then
              E.attrEscape (link.drop "mailto:".toList.length)
            else L.entityEscapeWithSkip link (L.htmlEntityFindAllIndex link))
        ++ "</a>".toList) := by
  rw [AutoLink_of_hyperlink E L p out link kind (by simp [hkind])]
  simp only [hkind, if_true, Option.map_some']

/-- The amended C15 for the bare address `a@b.c`. -/
theorem c15_email_href_always_prefixed_witness :
    AutoLink sampleEnv sampleLinkEnv (freshPlain 0) [] "a@b.c".toList 2 =
      some "<a href=\"mailto:a@b.c\">a@b.c</a>".toList :=
  (c15_email_href_always_prefixed sampleEnv sampleLinkEnv (freshPlain 0) [] "a@b.c".toList 2
    rfl).trans (by decide)

/-! ## C16, C19: finalizing -/

theorem TocFinalize_of_closed (p : Plain) (h : p.currentLevel ≤ 0) : TocFinalize p = p := by
  have hloop : tocFinalizeLoop (p.currentLevel - 1).toNat p = p :=
    tocFinalizeLoop_of_le _ p (by omega)
  have hnot : ¬ (p.currentLevel > 0) := by omega
  simp only [TocFinalize, hloop, hnot, if_false]

theorem iterate_tocFinalizeStep_currentLevel (n : Nat) : ∀ p : Plain,
    (tocFinalizeStep^[n] p).currentLevel = p.currentLevel - n := by
  induction n with
  | zero => intro p; simp
  | succ n ih =>
    intro p
    rw [Function.iterate_succ_apply, ih]
    show p.currentLevel - 1 - (n : Int) = p.currentLevel - ((n + 1 : Nat) : Int)
    push_cast; omega

theorem TocFinalize_currentLevel_of_open (p : Plain) (h : 1 ≤ p.currentLevel) :
    (TocFinalize p).currentLevel = 1 := by
  have hn : 1 + (((p.currentLevel - 1).toNat : Nat) : Int) = p.currentLevel := by omega
  have hcl := iterate_tocFinalizeStep_currentLevel (p.currentLevel - 1).toNat p
  have hpos : (tocFinalizeStep^[(p.currentLevel - 1).toNat] p).currentLevel > 0 := by
    rw [hcl]; omega
  simp only [TocFinalize]
  rw [tocFinalizeLoop_eq_iterate _ _ p hn le_rfl]
  simp only [hpos, if_true]
  rw [hcl]
  omega

/-- C16. For a state with `currentLevel = 0`, `TocFinalize` returns the state as it was:
the toc buffer, `currentLevel` and `headerCount` are unchanged and nothing is written. -/
theorem c16_finalize_without_headings (p : Plain) (h : p.currentLevel = 0) :
    TocFinalize p = p :=
  TocFinalize_of_closed p (le_of_eq h)

/-- C16 on a fresh renderer. -/
theorem c16_finalize_without_headings_witness :
    TocFinalize (freshPlain 128) = freshPlain 128 :=
  c16_finalize_without_headings (freshPlain 128) rfl

/-- C19, as stated, fails: after one heading at level 1 is registered on a fresh state, the
second `TocFinalize` writes the closing tag of the list once more. -/
theorem c19_second_finalize_writes_again :
    (TocFinalize (registerAll (freshPlain 0) [⟨"A".toList, 1, []⟩])).toc =
      "<ul>\n<li><a href=\"#toc_0\">A</a></li>\n</ul>\n".toList ∧
    (TocFinalize (TocFinalize (registerAll (freshPlain 0) [⟨"A".toList, 1, []⟩]))).toc =
      "<ul>\n<li><a href=\"#toc_0\">A</a></li>\n</ul>\n</ul>\n".toList ∧
    (TocFinalize (TocFinalize (registerAll (freshPlain 0) [⟨"A".toList, 1, []⟩]))).toc ≠
      (TocFinalize (registerAll (freshPlain 0) [⟨"A".toList, 1, []⟩])).toc := by
  decide

/-- C19, amended. For every state, calling `TocFinalize` twice leaves the same
`currentLevel` as calling it once; it leaves the same state when no list is open
(`currentLevel` at most 0, as when no heading was registered); when a list is open
(`currentLevel` at least 1) the first call leaves `currentLevel` at 1 and the second call
appends the closing tag of the list once more. -/
theorem c19_finalize_twice (p : Plain) :
    (TocFinalize (TocFinalize p)).currentLevel = (TocFinalize p).currentLevel ∧
    (p.currentLevel ≤ 0 → TocFinalize (TocFinalize p) = TocFinalize p) ∧
    (1 ≤ p.currentLevel →
      (TocFinalize p).currentLevel = 1 ∧
      (TocFinalize (TocFinalize p)).toc = (TocFinalize p).toc ++ "</ul>\n".toList) := by
  have hopen : 1 ≤ p.currentLevel →
      (TocFinalize p).currentLevel = 1 ∧
      (TocFinalize (TocFinalize p)).toc = (TocFinalize p).toc ++ "</ul>\n".toList := by
    intro h
    have h1 := TocFinalize_currentLevel_of_open p h
    refine ⟨h1, ?_⟩
    rw [TocFinalize_of_open (TocFinalize p) 0 (by rw [h1]; rfl)]
    rfl
  have hclosed : p.currentLevel ≤ 0 → TocFinalize (TocFinalize p) = TocFinalize p := by
    intro h
    rw [TocFinalize_of_closed p h, TocFinalize_of_closed p h]
  refine ⟨?_, hclosed, hopen⟩
  rcases le_or_lt p.currentLevel 0 with h | h
  · rw [hclosed h]
  · have h1 := (hopen (by omega)).1
    rw [TocFinalize_currentLevel_of_open (TocFinalize p) (by omega), h1]

/-- The amended C19 after one heading at level 2. -/
theorem c19_finalize_twice_witness :
    (TocFinalize (TocHeader (freshPlain 0) "A".toList 2)).currentLevel = 1 ∧
    (TocFinalize (TocFinalize (TocHeader (freshPlain 0) "A".toList 2))).toc =
      (TocFinalize (TocHeader (freshPlain 0) "A".toList 2)).toc ++ "</ul>\n".toList :=
  (c19_finalize_twice (TocHeader (freshPlain 0) "A".toList 2)).2.2 (by decide)

/-! ## C18: an elided heading and the table of contents -/

/-- C18. A `Header` call whose producer returns false and leaves the renderer state alone
returns with the renderer state as it was at entry, in table-of-contents mode or not, so the
toc buffer, `currentLevel` and `headerCount` are unchanged; and the call does return when
the producer leaves the output buffer at least as long as it was at entry. -/
theorem c18_elided_heading_leaves_toc (E : Env) (p : Plain) (out : Bytes) (text : Producer)
    (level : Int) (id : Bytes) (hstate : ∀ q o, (text q o).1 = q)
    (hfalse : ∀ q o, (text q o).2.2 = false) :
    (∀ p1 out1, Header E p out text level id = some (p1, out1) →
      p1.toc = p.toc ∧ p1.currentLevel = p.currentLevel ∧ p1.headerCount = p.headerCount) ∧
    (out.length ≤ (text p (E.doubleSpace out ++ headerOpenTag E p level id)).2.1.length →
      ∃ out1, Header E p out text level id = some (p, out1)) := by
  have hs := hstate p (E.doubleSpace out ++ headerOpenTag E p level id)
  have hf := hfalse p (E.doubleSpace out ++ headerOpenTag E p level id)
  rcases ht : text p (E.doubleSpace out ++ headerOpenTag E p level id) with ⟨q, o, b⟩
  rw [ht] at hs hf
  simp only at hs hf
  subst hs hf
  constructor
  · intro p1 out1 h
    simp only [Header, ht] at h
    rw [Truncate_map_fst _ _ _ _ _ h]
    exact ⟨rfl, rfl, rfl⟩
  · intro hlen
    have hrange : 0 ≤ (out.length : Int) ∧ (out.length : Int) ≤ (o.length : Int) :=
      ⟨by omega, by exact_mod_cast hlen⟩
    exact ⟨o.take out.length, by simp [Header, ht, Truncate, hrange]⟩

/-- C18 in table-of-contents mode, with a producer that writes `y` and returns false. -/
theorem c18_elided_heading_leaves_toc_witness :
    ∃ out1, Header sampleEnv (freshPlain 128) "x".toList (appendProducer "y".toList false) 1 []
      = some (freshPlain 128, out1) :=
  (c18_elided_heading_leaves_toc sampleEnv (freshPlain 128) "x".toList
    (appendProducer "y".toList false) 1 [] (fun _ _ => rfl) (fun _ _ => rfl)).2 (by decide)

/-! ## C20: the constructor -/

/-- C20 fails: `PlainRenderer` drops its argument; the renderer it returns reports the
flags 0 for every argument, for instance for 128. -/
theorem c20_constructor_drops_flags :
    (∀ flags : Int, Flags (PlainRenderer flags) = 0) ∧ Flags (PlainRenderer 128) ≠ 128 :=
  ⟨fun _ => rfl, by decide⟩

/-! ## What a level transition writes -/

theorem tocOpenStep_toc_of_closed (p : Plain)
    (h : HasSuffix p.toc "</li>\n".toList = false) (hcl : p.currentLevel ≤ 0) :
    (tocOpenStep p).toc =
      (if p.toc.length > 0 then p.toc ++ "\n".toList else p.toc) ++ "<ul>\n".toList := by
  have hcl2 : ¬ (p.currentLevel > 0) := not_lt.mpr hcl
  simp only [tocOpenStep, h, hcl2, Bool.false_eq_true, if_false]

/-- What one turn of the opening loop does to the buffer: it removes a final closed-item
tag, if there is one, and writes a new list, after a new item or a newline where the source
writes them. -/
theorem tocOpenStep_written (p : Plain) :
    ∃ W, (tocOpenStep p).toc =
        (if HasSuffix p.toc "</li>\n".toList = true then
          p.toc.take (p.toc.length - "</li>\n".toList.length) else p.toc) ++ W ∧
      (W = "<ul>\n".toList ∨ W = "\n<ul>\n".toList ∨ W = "<li>\n<ul>\n".toList) := by
  by_cases hs : HasSuffix p.toc "</li>\n".toList = true
  · obtain ⟨s, hs1⟩ : ∃ s, p.toc = s ++ "</li>\n".toList := by
      obtain ⟨t, ht⟩ := List.isSuffixOf_iff_suffix.mp hs
      exact ⟨t, ht.symm⟩
    rw [tocOpenStep_toc_of_suffix_any p s hs1]
    simp only [hs, if_true]
    rw [hs1, take_length_sub_append]
    by_cases hlen : s.length > 0
    · exact ⟨"\n<ul>\n".toList, by simp [hlen], Or.inr (Or.inl rfl)⟩
    · exact ⟨"<ul>\n".toList, by simp [hlen], Or.inl rfl⟩
  · simp only [hs, Bool.false_eq_true, if_false]
    rw [Bool.not_eq_true] at hs
    by_cases hcl : 0 < p.currentLevel
    · exact ⟨"<li>\n<ul>\n".toList,
        by rw [tocOpenStep_toc_of_not_suffix p hs hcl]; simp, Or.inr (Or.inr rfl)⟩
    · have hstep := tocOpenStep_toc_of_closed p hs (not_lt.mp hcl)
      by_cases hlen : p.toc.length > 0
      · exact ⟨"\n<ul>\n".toList, by rw [hstep]; simp [hlen], Or.inr (Or.inl rfl)⟩
      · exact ⟨"<ul>\n".toList, by rw [hstep]; simp [hlen], Or.inl rfl⟩

/-- A later turn of the opening loop finds the buffer ending with the list it has just
opened, and only appends. -/
theorem tocOpenStep_written_after (q : Plain) (k : Bytes)
    (h : q.toc = k ++ "<ul>\n".toList) :
    ∃ X, (tocOpenStep q).toc = q.toc ++ X ∧
      (X = "\n<ul>\n".toList ∨ X = "<li>\n<ul>\n".toList) := by
  have hs : HasSuffix q.toc "</li>\n".toList = false := by
    rw [h]
    exact HasSuffix_append_ne _ _ _ (by decide) (by decide)
  have hlen : q.toc.length > 0 := by rw [h]; simp
  by_cases hcl : 0 < q.currentLevel
  · exact ⟨"<li>\n<ul>\n".toList,
      by rw [tocOpenStep_toc_of_not_suffix q hs hcl]; simp, Or.inr rfl⟩
  · have hstep := tocOpenStep_toc_of_closed q hs (not_lt.mp hcl)
    exact ⟨"\n<ul>\n".toList, by rw [hstep]; simp [hlen], Or.inl rfl⟩

/-- The opening loop, after at least one turn: below what it wrote, the buffer is the
buffer at entry without a final closed-item tag; what it wrote holds one `<ul>` line for
each turn and no `</ul>`. -/
theorem iterate_tocOpenStep_written (n : Nat) (p : Plain) :
    ∃ W W0, (tocOpenStep^[n + 1] p).toc =
        (if HasSuffix p.toc "</li>\n".toList = true then
          p.toc.take (p.toc.length - "</li>\n".toList.length) else p.toc) ++ W ∧
      W = W0 ++ "<ul>\n".toList ∧
      countOcc "<ul>\n".toList W = n + 1 ∧ countOcc "</ul>".toList W = 0 := by
  induction n with
  | zero =>
    obtain ⟨W, hW, hcase⟩ := tocOpenStep_written p
    refine ⟨W, W.take (W.length - 5), by simpa using hW, ?_, ?_, ?_⟩ <;>
      rcases hcase with rfl | rfl | rfl <;> decide
  | succ n ih =>
    obtain ⟨W, W0, hW, hW0, h1, h2⟩ := ih
    rw [Function.iterate_succ_apply']
    have hq : (tocOpenStep^[n + 1] p).toc =
        ((if HasSuffix p.toc "</li>\n".toList = true then
          p.toc.take (p.toc.length - "</li>\n".toList.length) else p.toc) ++ W0)
          ++ "<ul>\n".toList := by
      rw [hW, hW0, List.append_assoc]
    obtain ⟨X, hX, hcase⟩ := tocOpenStep_written_after _ _ hq
    have hlast : W = (W0 ++ "<ul>".toList) ++ [Char.ofNat 10] := by
      rw [hW0, List.append_assoc]; rfl
    refine ⟨W ++ X, W0 ++ ("<ul>\n".toList ++ X.take (X.length - 5)), ?_, ?_, ?_, ?_⟩
    · rw [hX, hW, List.append_assoc]
    · rw [hW0, List.append_assoc, List.append_assoc]
      rcases hcase with rfl | rfl <;> rfl
    · rw [countOcc_append_of_last _ W X _ _ hlast (by decide), h1]
      rcases hcase with rfl | rfl <;> rfl
    · rw [countOcc_append_of_last _ W X _ _ hlast (by decide), h2]
      rcases hcase with rfl | rfl <;> rfl

/-- The closing loop only appends; what it writes holds one `</ul>` for each turn and no
`<ul>` line. -/
theorem iterate_tocCloseStep_written (m : Nat) (p : Plain) :
    ∃ W, (tocCloseStep^[m] p).toc = p.toc ++ W ∧
      countOcc "<ul>\n".toList W = 0 ∧ countOcc "</ul>".toList W = m := by
  induction m with
  | zero => exact ⟨[], by simp, rfl, rfl⟩
  | succ m ih =>
    obtain ⟨W, hW, h1, h2⟩ := ih
    rw [Function.iterate_succ_apply']
    have hstep : ∀ q : Plain, ∃ Y, (tocCloseStep q).toc = q.toc ++ Y ∧
        (Y = "</ul>".toList ∨ Y = "</ul></li>\n".toList) := by
      intro q
      by_cases hq : q.currentLevel > 1
      · exact ⟨"</ul></li>\n".toList, by simp [tocCloseStep, hq], Or.inr rfl⟩
      · exact ⟨"</ul>".toList, by simp [tocCloseStep, hq], Or.inl rfl⟩
    obtain ⟨Y, hY, hcase⟩ := hstep (tocCloseStep^[m] p)
    have hhead : ∃ Y1, Y = '<' :: Y1 := by
      rcases hcase with rfl | rfl <;> exact ⟨_, rfl⟩
    obtain ⟨Y1, hY1⟩ := hhead
    refine ⟨W ++ Y, by rw [hY, hW, List.append_assoc], ?_, ?_⟩
    · rw [countOcc_append_of_head _ W Y '<' Y1 hY1 (by decide), h1]
      rcases hcase with rfl | rfl <;> rfl
    · rw [countOcc_append_of_head _ W Y '<' Y1 hY1 (by decide), h2]
      rcases hcase with rfl | rfl <;> rfl

theorem countOcc_le_of_prefix (pat1 pat2 : Bytes) (h : pat1 <+: pat2) (s : Bytes) :
    countOcc pat2 s ≤ countOcc pat1 s := by
  induction s with
  | nil => exact le_rfl
  | cons c s ih =>
    show (if pat2.isPrefixOf (c :: s) = true then 1 else 0) + countOcc pat2 s
      ≤ (if pat1.isPrefixOf (c :: s) = true then 1 else 0) + countOcc pat1 s
    by_cases h2 : pat2.isPrefixOf (c :: s) = true
    · have h1 : pat1.isPrefixOf (c :: s) = true :=
        List.isPrefixOf_iff_prefix.mpr (h.trans (List.isPrefixOf_iff_prefix.mp h2))
      simp only [h1, h2, if_true]
      omega
    · rw [if_neg h2]
      omega

/-- The item of a heading whose text and anchor contain no list tag holds the list tags of
its fixed parts only. -/
theorem countOcc_tocItem (pat : Bytes) (hpat : pat ∈ listTags) (p : Plain)
    (text anchor : Bytes) (ht : noListTags text) (ha : noListTags anchor) :
    countOcc pat (tocItem p text anchor) =
      countOcc pat "<li><a href=\"#".toList + countOcc pat "\">".toList
        + countOcc pat "</a></li>\n".toList := by
  have htarget : countOcc pat (tocTarget p anchor) = 0 := by
    unfold tocTarget
    split
    · exact ha pat hpat
    · exact noListTags_generated _ pat hpat
  have h1 : tocItem p text anchor = "<li><a href=\"#".toList
      ++ (tocTarget p anchor ++ ("\">".toList ++ (text ++ "</a></li>\n".toList))) := by
    simp [tocItem]
  rw [h1,
    countOcc_append_of_last pat "<li><a href=\"#".toList _ "<li><a href=\"".toList '#' rfl
      (listTags_last_safe pat hpat _ (by decide)),
    countOcc_append_of_head pat (tocTarget p anchor)
      ("\">".toList ++ (text ++ "</a></li>\n".toList)) '"'
      (">".toList ++ (text ++ "</a></li>\n".toList)) rfl
      (listTags_head_safe pat hpat _ (by decide)),
    countOcc_append_of_last pat "\">".toList _ "\"".toList '>' rfl
      (listTags_last_safe pat hpat _ (by decide)),
    countOcc_append_of_head pat text "</a></li>\n".toList '<' "/a></li>\n".toList rfl
      (listTags_head_safe pat hpat _ (by decide)),
    htarget, ht pat hpat]
  omega

/-- The item of a heading whose text and anchor contain no list tag holds no `<ul>` line
and no `</ul>`. -/
theorem countOcc_tocItem_ul (p : Plain) (text anchor : Bytes) (ht : noListTags text)
    (ha : noListTags anchor) :
    countOcc "<ul>\n".toList (tocItem p text anchor) = 0 ∧
    countOcc "</ul>".toList (tocItem p text anchor) = 0 := by
  have h1 := countOcc_tocItem "<ul>".toList ul_mem_listTags.1 p text anchor ht ha
  have h2 := countOcc_tocItem "</ul>".toList ul_mem_listTags.2 p text anchor ht ha
  have h3 := countOcc_le_of_prefix "<ul>".toList "<ul>\n".toList ⟨[Char.ofNat 10], rfl⟩
    (tocItem p text anchor)
  have e1 : countOcc "<ul>".toList "<li><a href=\"#".toList = 0 := by decide
  have e2 : countOcc "<ul>".toList "\">".toList = 0 := by decide
  have e3 : countOcc "<ul>".toList "</a></li>\n".toList = 0 := by decide
  have e4 : countOcc "</ul>".toList "<li><a href=\"#".toList = 0 := by decide
  have e5 : countOcc "</ul>".toList "\">".toList = 0 := by decide
  have e6 : countOcc "</ul>".toList "</a></li>\n".toList = 0 := by decide
  constructor <;> omega

/-- With enough fuel the two loops make exactly the turns after which their conditions
fail: the opening loop `level - currentLevel` turns, the closing loop `currentLevel - level`
turns. -/
theorem tocLoops_eq_iterate (p : Plain) (level : Int) (fuel1 fuel2 : Nat)
    (h1 : (level - p.currentLevel).toNat ≤ fuel1)
    (h2 : (p.currentLevel - level).toNat ≤ fuel2) :
    tocCloseLoop fuel2 level (tocOpenLoop fuel1 level p) =
      tocCloseStep^[(p.currentLevel - level).toNat]
        (tocOpenStep^[(level - p.currentLevel).toNat] p) := by
  rcases le_total p.currentLevel level with hle | hle
  · have hm : (p.currentLevel - level).toNat = 0 := by omega
    rw [hm, Function.iterate_zero, id_eq,
      tocOpenLoop_eq_iterate _ fuel1 level p (by omega) h1]
    exact tocCloseLoop_of_le _ _ _
      (le_of_eq (by rw [iterate_tocOpenStep_currentLevel]; omega))
  · have hn : (level - p.currentLevel).toNat = 0 := by omega
    rw [hn, Function.iterate_zero, id_eq, tocOpenLoop_of_le _ _ _ hle]
    exact tocCloseLoop_eq_iterate _ fuel2 level p (by omega) h2

theorem tocTransition_eq_iterate (p : Plain) (level : Int) :
    tocTransition p level =
      tocCloseStep^[(p.currentLevel - level).toNat]
        (tocOpenStep^[(level - p.currentLevel).toNat] p) := by
  rcases le_total p.currentLevel level with hle | hle
  · have hm : (p.currentLevel - level).toNat = 0 := by omega
    rw [hm, Function.iterate_zero, id_eq]
    exact tocTransition_up p level _ (by omega)
  · have hn : (level - p.currentLevel).toNat = 0 := by omega
    rw [hn, Function.iterate_zero, id_eq]
    exact tocTransition_down p level _ (by omega)

/-- What the level transition writes above the part of the buffer it keeps. -/
theorem tocTransition_written (p : Plain) (level : Int) :
    ∃ W, (tocTransition p level).toc = tocKept p level ++ W ∧
      countOcc "<ul>\n".toList W = (level - p.currentLevel).toNat ∧
      countOcc "</ul>".toList W = (p.currentLevel - level).toNat := by
  rcases lt_or_le p.currentLevel level with hlt | hle
  · obtain ⟨n, hn⟩ : ∃ n : Nat, (level - p.currentLevel).toNat = n + 1 :=
      ⟨(level - p.currentLevel).toNat - 1, by omega⟩
    obtain ⟨W, -, hW, -, h1, h2⟩ := iterate_tocOpenStep_written n p
    have hgt : level > p.currentLevel := hlt
    refine ⟨W, ?_, ?_, ?_⟩
    · rw [tocTransition_up p level (n + 1) (by omega), hW]
      simp only [tocKept, hgt, true_and]
    · rw [h1, hn]
    · rw [h2]; omega
  · obtain ⟨W, hW, h1, h2⟩ := iterate_tocCloseStep_written (p.currentLevel - level).toNat p
    have hnot : ¬ (level > p.currentLevel) := not_lt.mpr hle
    refine ⟨W, ?_, ?_, h2⟩
    · rw [tocTransition_down p level (p.currentLevel - level).toNat (by omega), hW]
      simp only [tocKept, hnot, false_and, if_false]
    · rw [h1]; omega

/-! ## C17: the level transition -/

/-- C17. For every state and every integer level, `TocHeaderWithAnchor` returns with
`currentLevel` equal to the level. Its loops end: with any fuel from `level - currentLevel`
for the opening loop and `currentLevel - level` for the closing loop they make exactly that
many turns, and each turn changes `currentLevel` by one. Above the part of the buffer that
is kept, the bytes written before the new item hold exactly `max (level - currentLevel) 0`
occurrences of `<ul>` with its newline and exactly `max (currentLevel - level) 0`
occurrences of `</ul>`, and so do the bytes written with the new item when the text and
the anchor contain no list tag. -/
theorem c17_level_transition (p : Plain) (text : Bytes) (level : Int) (anchor : Bytes) :
    (TocHeaderWithAnchor p text level anchor).currentLevel = level ∧
    tocTransition p level =
      tocCloseStep^[(p.currentLevel - level).toNat]
        (tocOpenStep^[(level - p.currentLevel).toNat] p) ∧
    (∀ q : Plain, (tocOpenStep q).currentLevel = q.currentLevel + 1 ∧
      (tocCloseStep q).currentLevel = q.currentLevel - 1) ∧
    (∀ fuel1 fuel2 : Nat, (level - p.currentLevel).toNat ≤ fuel1 →
      (p.currentLevel - level).toNat ≤ fuel2 →
      tocCloseLoop fuel2 level (tocOpenLoop fuel1 level p) = tocTransition p level) ∧
    ∃ W : Bytes,
      (tocTransition p level).toc = tocKept p level ++ W ∧
      (TocHeaderWithAnchor p text level anchor).toc =
        tocKept p level ++ (W ++ tocItem (tocTransition p level) text anchor) ∧
      countOcc "<ul>\n".toList W = (level - p.currentLevel).toNat ∧
      countOcc "</ul>".toList W = (p.currentLevel - level).toNat ∧
      (noListTags text → noListTags anchor →
        countOcc "<ul>\n".toList (W ++ tocItem (tocTransition p level) text anchor)
          = (level - p.currentLevel).toNat ∧
        countOcc "</ul>".toList (W ++ tocItem (tocTransition p level) text anchor)
          = (p.currentLevel - level).toNat) := by
  refine ⟨TocHeaderWithAnchor_currentLevel p text level anchor,
    tocTransition_eq_iterate p level, fun q => ⟨rfl, rfl⟩, ?_, ?_⟩
  · intro fuel1 fuel2 h1 h2
    rw [tocLoops_eq_iterate p level fuel1 fuel2 h1 h2, tocTransition_eq_iterate]
  · obtain ⟨W, hW, h1, h2⟩ := tocTransition_written p level
    refine ⟨W, hW, ?_, h1, h2, ?_⟩
    · show (tocTransition p level).toc ++ tocItem (tocTransition p level) text anchor = _
      rw [hW, List.append_assoc]
    · intro ht ha
      obtain ⟨e1, e2⟩ := countOcc_tocItem_ul (tocTransition p level) text anchor ht ha
      have hitem : tocItem (tocTransition p level) text anchor =
          '<' :: ("li><a href=\"#".toList ++ tocTarget (tocTransition p level) anchor
            ++ "\">".toList ++ text ++ "</a></li>\n".toList) := by
        simp [tocItem]
      rw [countOcc_append_of_head _ W _ '<' _ hitem (by decide),
        countOcc_append_of_head _ W _ '<' _ hitem (by decide), e1, e2, h1, h2]
      exact ⟨rfl, rfl⟩

/-- C17 for the jump from level 1 to level 3 and from level 3 to level 1, with more fuel
than the loops need. -/
theorem c17_level_transition_witness :
    tocCloseLoop 7 3 (tocOpenLoop 5 3 (TocHeader (freshPlain 0) "A".toList 1))
      = tocTransition (TocHeader (freshPlain 0) "A".toList 1) 3 ∧
    tocCloseLoop 7 1 (tocOpenLoop 5 1 (TocHeader (freshPlain 0) "A".toList 3))
      = tocTransition (TocHeader (freshPlain 0) "A".toList 3) 1 :=
  ⟨(c17_level_transition (TocHeader (freshPlain 0) "A".toList 1) "B".toList 3 []).2.2.2.1 5 7
      (by decide) (by decide),
    (c17_level_transition (TocHeader (freshPlain 0) "A".toList 3) "B".toList 1 []).2.2.2.1 5 7
      (by decide) (by decide)⟩

end Mmark
